import Mathlib

/-!
Verification of the `bufferqueue` library (src/bufferqueue.c, src/bufferqueue.h).

The queue is a doubly-linked chain of nodes, each owning one byte buffer.
We model the chain as a `List Buf` in head-to-tail order: the node reached
from `head_node` by following `next_node` k times is the list entry at
position k.  Pointer identity of nodes is modelled by a fresh numeric `id`
drawn from a counter in the context (`create_node` in the C source calls
`malloc`, which returns a fresh address).  Node contents (`buff`, `size`)
are immutable after `create_node`/`memcpy`, so a node pointer is faithfully
represented by the immutable `Buf` value.

Machine integers: all counters in the C source are `uint32_t`.  Counter
increments and decrements are modelled as exact `Nat` arithmetic, which
agrees with the `uint32_t` fields in every execution with fewer than 2^32
live nodes (the step relation bounds live nodes by `UMAX`, the capacity of
the 32-bit `node_num` field; 2^32 live nodes would need well over 10^11
bytes of heap).  The one place where 32-bit wraparound is observable at
realistic sizes - the expression `node_num - 1` in `bque_item`, which
underflows when `node_num == 0` - is modelled exactly, as
`(node_num + UMAX) % U32`; this expression equals the C value of
`node_num - 1` for every `node_num ≤ U32`.

Allocation failures (`malloc` returning NULL) are not modelled: in the
model every allocation succeeds.  On every allocation-failure path the C
functions return `BQUE_ERR_NO_MEM` without mutating the queue, so this
only removes error returns that no claim is about.

Dereferencing a NULL pointer is undefined behaviour in C; the model makes
it a distinguished `crash` result, and the step relation of the state
machine only steps over non-crashing calls.
-/

namespace BQ

/-- 2^32, the modulus of `uint32_t` arithmetic. -/
def U32 : Nat := 4294967296

/-- 2^32 - 1, the largest `uint32_t` value. -/
def UMAX : Nat := 4294967295

/-- `enum _bque_res` from bufferqueue.h (names without the BQUE_/BQUE_ERR_ prefixes). -/
inductive BqueRes where
  | OK
  | ERR
  | NO_MEM
  | BAD_OFFS
  | BAD_SIZE
  | FULL_QUE
  | EMPTY_QUE
  | BAD_IDX
  | ITER_STOP
  | BAD_OPT
deriving DecidableEq

/-- `enum _bque_sort_res`. -/
inductive SortRes where
  | less
  | equal
  | greater
deriving DecidableEq

/-- `enum _bque_iter_order`. -/
inductive IterOrder where
  | forward
  | backward
deriving DecidableEq

/-- `enum _bque_sort_order`. -/
inductive SortOrder where
  | ascending
  | descending
deriving DecidableEq

/-- A queue node (`struct _bque_node`) without its links: `id` models the
malloc address (pointer identity), `data` the buffer contents (`none` when
the caller passed `buff == NULL`, leaving the buffer uninitialized), and
`size` the buffer size.  The links `prev_node`/`next_node` are represented
by the node's position in the context's node list. -/
structure Buf where
  id : Nat
  data : Option (List Nat)
  size : Nat
deriving DecidableEq

/-- `bque_conf_t` (the `free_buff_cb` member has no observable effect on
the queue state, so it is not modelled). -/
structure Conf where
  buffNumMax : Nat
  buffSizeMax : Nat
deriving DecidableEq

/-- `struct _bque_ctx`: the node chain head-to-tail, the configuration,
the cached node count (`cache.node_num`), the fast indexing cache
(`cache.last`: the cached node and its forward index; `none` models
`cache.last.node == NULL`), and the allocation counter producing fresh
node ids. -/
structure Ctx where
  nodes : List Buf
  nodeNumMax : Nat
  buffSizeMax : Nat
  nodeNum : Nat
  cacheLast : Option (Buf × Nat)
  nextId : Nat
deriving DecidableEq

/-- `BQUE_DEF_NODE_NUM_MAX`. -/
def BQUE_DEF_NODE_NUM_MAX : Nat := 1024

/-- `BQUE_DEF_BUFF_SIZE_MAX`. -/
def BQUE_DEF_BUFF_SIZE_MAX : Nat := 1024

/-- `bque_new`: a zeroed context, configured from `conf` when non-NULL and
from the defaults otherwise. -/
def bque_new (conf : Option Conf) : Ctx :=
  match conf with
  | some c => ⟨[], c.buffNumMax, c.buffSizeMax, 0, none, 0⟩
  | none => ⟨[], BQUE_DEF_NODE_NUM_MAX, BQUE_DEF_BUFF_SIZE_MAX, 0, none, 0⟩

/-- `bque_stat`: reports `cache.node_num`. -/
def bque_stat (ctx : Ctx) : Nat := ctx.nodeNum

/-- `create_node` plus the caller's conditional `memcpy`: allocates a fresh
node holding a buffer of `size` bytes whose contents are `buff` when the
caller passed a buffer and indeterminate otherwise. -/
def create_node (ctx : Ctx) (buff : Option (List Nat)) (size : Nat) : Buf × Ctx :=
  (⟨ctx.nextId, buff, size⟩, { ctx with nextId := ctx.nextId + 1 })

/-- The full-queue test shared by `bque_enqueue`/`bque_preempt`/`bque_insert`:
`node_num_max != 0 && node_num + 1 > node_num_max`. -/
def fullCheck (ctx : Ctx) : Prop :=
  ctx.nodeNumMax ≠ 0 ∧ ctx.nodeNum + 1 > ctx.nodeNumMax

instance (ctx : Ctx) : Decidable (fullCheck ctx) := by
  unfold fullCheck; infer_instance

/-- The size test shared by the insertion functions:
`size == 0 || (buff_size_max != 0 && size > buff_size_max)`. -/
def badSizeCheck (ctx : Ctx) (size : Nat) : Prop :=
  size = 0 ∨ (ctx.buffSizeMax ≠ 0 ∧ size > ctx.buffSizeMax)

instance (ctx : Ctx) (size : Nat) : Decidable (badSizeCheck ctx size) := by
  unfold badSizeCheck; infer_instance

/-- `bque_enqueue`: append at the tail.  The branch on `tail_node == NULL`
is the branch on an empty chain.  The fast indexing cache is not touched. -/
def bque_enqueue (ctx : Ctx) (buff : Option (List Nat)) (size : Nat) : BqueRes × Ctx :=
  if fullCheck ctx then (.FULL_QUE, ctx)
  else if badSizeCheck ctx size then (.BAD_SIZE, ctx)
  else
    let p := create_node ctx buff size
    match p.2.nodes with
    | [] => (.OK, { p.2 with nodes := [p.1], nodeNum := 1 })
    | _ :: _ => (.OK, { p.2 with nodes := p.2.nodes ++ [p.1], nodeNum := p.2.nodeNum + 1 })

/-- `bque_preempt`: link at the head (branching on `head_node == NULL`),
then increment the cached index when the fast indexing cache is occupied. -/
def bque_preempt (ctx : Ctx) (buff : Option (List Nat)) (size : Nat) : BqueRes × Ctx :=
  if fullCheck ctx then (.FULL_QUE, ctx)
  else if badSizeCheck ctx size then (.BAD_SIZE, ctx)
  else
    let p := create_node ctx buff size
    let c2 :=
      match p.2.nodes with
      | [] => { p.2 with nodes := [p.1], nodeNum := 1 }
      | _ :: _ => { p.2 with nodes := p.1 :: p.2.nodes, nodeNum := p.2.nodeNum + 1 }
    (.OK, { c2 with cacheLast :=
      match c2.cacheLast with
      | some (b, i) => some (b, i + 1)
      | none => none })

/-- `bque_insert`: validate (full, size, `idx > node_num`), then splice the
new node: at the head when `idx == 0`, at the tail when `idx == node_num`,
otherwise before the node reached by walking `idx` links from the head,
i.e. before position `idx`.  The cached index is incremented when it is
`>= idx`. -/
def bque_insert (ctx : Ctx) (idx : Nat) (buff : Option (List Nat)) (size : Nat) :
    BqueRes × Ctx :=
  if fullCheck ctx then (.FULL_QUE, ctx)
  else if badSizeCheck ctx size then (.BAD_SIZE, ctx)
  else if idx > ctx.nodeNum then (.BAD_OFFS, ctx)
  else
    let p := create_node ctx buff size
    let nodes' :=
      if idx = 0 then
        match p.2.nodes with
        | [] => [p.1]
        | _ :: _ => p.1 :: p.2.nodes
      else if idx = p.2.nodeNum then p.2.nodes ++ [p.1]
      else p.2.nodes.take idx ++ p.1 :: p.2.nodes.drop idx
    let cache' :=
      match p.2.cacheLast with
      | some (b, i) => if i ≥ idx then some (b, i + 1) else some (b, i)
      | none => none
    (.OK, { p.2 with nodes := nodes', nodeNum := p.2.nodeNum + 1, cacheLast := cache' })

/-- Result of an operation that hands a buffer back to the caller
(`bque_dequeue`/`bque_forfeit`/`bque_drop`) or lends one (`bque_item`):
the copied/borrowed contents and size on success, an error code on a
rejected call, or `crash` for a NULL-pointer dereference (undefined
behaviour in the C source). -/
inductive ItemRes where
  | ok (data : Option (List Nat)) (size : Nat)
  | err (res : BqueRes)
  | crash
deriving DecidableEq

/-- `bque_dequeue`: reject on `node_num == 0`; otherwise copy out the head
node, unlink and free it (the `node_num == 1` branch resets both ends),
and fix the cache: a cached index 0 is the removed node (cache cleared),
any other cached index shifts down by one. -/
def bque_dequeue (ctx : Ctx) : ItemRes × Ctx :=
  if ctx.nodeNum = 0 then (.err .EMPTY_QUE, ctx)
  else
    match ctx.nodes with
    | [] => (.crash, ctx)
    | h :: t =>
      let c1 :=
        if ctx.nodeNum = 1 then { ctx with nodes := ([] : List Buf), nodeNum := 0 }
        else { ctx with nodes := t, nodeNum := ctx.nodeNum - 1 }
      (.ok h.data h.size, { c1 with cacheLast :=
        match c1.cacheLast with
        | some (b, i) => if i = 0 then none else some (b, i - 1)
        | none => none })

/-- `bque_forfeit`: reject on `node_num == 0`; otherwise copy out the tail
node, unlink and free it, and clear the cache exactly when the cached
index equals the new `node_num` (i.e. the cached node was the removed
tail). -/
def bque_forfeit (ctx : Ctx) : ItemRes × Ctx :=
  if ctx.nodeNum = 0 then (.err .EMPTY_QUE, ctx)
  else
    match ctx.nodes.getLast? with
    | none => (.crash, ctx)
    | some lastNode =>
      let c1 :=
        if ctx.nodeNum = 1 then { ctx with nodes := ([] : List Buf), nodeNum := 0 }
        else { ctx with nodes := ctx.nodes.dropLast, nodeNum := ctx.nodeNum - 1 }
      (.ok lastNode.data lastNode.size, { c1 with cacheLast :=
        match c1.cacheLast with
        | some (b, i) => if i = c1.nodeNum then none else some (b, i)
        | none => none })

/-- `bque_drop`: reject on empty queue or `idx >= node_num`; otherwise walk
`idx` links from the head (position `idx`; walking past the end of the
chain dereferences NULL), copy the node out, unlink it (the C source
distinguishes the single-node, head, tail and middle cases by pointer
comparisons, which under a well-formed chain are the position comparisons
used here), and fix the cache: cleared when the cached index is the
dropped one, shifted down when it is larger. -/
def bque_drop (ctx : Ctx) (idx : Nat) : ItemRes × Ctx :=
  if ctx.nodeNum = 0 then (.err .EMPTY_QUE, ctx)
  else if idx ≥ ctx.nodeNum then (.err .BAD_IDX, ctx)
  else
    match ctx.nodes[idx]? with
    | none => (.crash, ctx)
    | some node =>
      let nodes' :=
        if ctx.nodeNum = 1 then ([] : List Buf)
        else if idx = 0 then ctx.nodes.tail
        else if idx = ctx.nodeNum - 1 then ctx.nodes.dropLast
        else ctx.nodes.take idx ++ ctx.nodes.drop (idx + 1)
      let cache' :=
        match ctx.cacheLast with
        | some (b, i) =>
          if i = idx then none else if i > idx then some (b, i - 1) else some (b, i)
        | none => none
      (.ok node.data node.size,
        { ctx with nodes := nodes', nodeNum := ctx.nodeNum - 1, cacheLast := cache' })

/-- `bque_empty`: return immediately on `node_num == 0`; otherwise free
every node (invoking the configured free callback on each buffer, which
has no observable effect on the state), reset the ends and the count, and
clear the fast indexing cache. -/
def bque_empty (ctx : Ctx) : BqueRes × Ctx :=
  if ctx.nodeNum = 0 then (.OK, ctx)
  else (.OK, { ctx with nodes := ([] : List Buf), nodeNum := 0, cacheLast := none })

/-- `bque_abs_diff(a, b)`: `a > b ? a - b : b - a` on `uint32_t`. -/
def absDiff (a b : Nat) : Nat := if a > b then a - b else b - a

/-- The index-validation prologue of `bque_item`.  `node_idx_max` is the
`uint32_t` value of `node_num - 1`: it underflows to `UMAX` when
`node_num == 0`.  A non-negative index is cast to `uint32_t` and compared
against `node_idx_max`; a negative index `idx` is mapped through
`temp = (uint32_t)(-idx)`, rejected when `temp > node_num`, and otherwise
resolved to the forward index `node_num - temp`.  Returns the forward
index, or `none` for `BQUE_ERR_BAD_IDX`. -/
def itemValidate (node_num : Nat) (idx : Int) : Option Nat :=
  if 0 ≤ idx then
    if idx.toNat > (node_num + UMAX) % U32 then none else some idx.toNat
  else
    if (-idx).toNat > node_num then none else some (node_num - (-idx).toNat)

/-- Follow `next_node` links: one step from position `s` reaches position
`s + 1`; the walk ends after `steps` steps at `nodes[s + steps]`, and
`none` models running off the chain (dereferencing NULL). -/
def chainWalkF (nodes : List Buf) : Nat → Nat → Option Buf
  | s, 0 => nodes[s]?
  | s, steps + 1 => chainWalkF nodes (s + 1) steps

/-- Follow `prev_node` links: `none` models stepping back past the head
(dereferencing NULL). -/
def chainWalkB (nodes : List Buf) : Nat → Nat → Option Buf
  | s, 0 => nodes[s]?
  | s, steps + 1 => if s = 0 then none else chainWalkB nodes (s - 1) steps

/-- The running distance of a candidate: `node_idx_diff`, initialized to
`0xFFFFFFFF` while no candidate has been assigned. -/
def candDiff (cand : Option ((Nat × IterOrder) × Nat)) : Nat :=
  match cand with
  | some (_, d) => d
  | none => UMAX

/-- One of the `temp_node_idx_diff < node_idx_diff` checks of `bque_item`:
adopt the proposed start position/direction on a strict distance
improvement. -/
def updCand (cand : Option ((Nat × IterOrder) × Nat)) (pos : Nat) (dir : IterOrder)
    (d : Nat) : Option ((Nat × IterOrder) × Nat) :=
  if d < candDiff cand then some ((pos, dir), d) else cand

/-- The candidate-selection part of `bque_item`: starting from the cache
candidate (when the cache is occupied and its index differs from the
target - `cand0`, carrying start position/direction and distance), try to
replace it first by the head (position 0, forward) and then by the tail
(claimed position `node_idx_max`, backward).  `none` means no candidate
was ever assigned, in which case the C walk starts from an uninitialized
pointer. -/
def itemSelect (node_num fwd : Nat) (cand0 : Option ((Nat × IterOrder) × Nat)) :
    Option (Nat × IterOrder) :=
  match updCand
      (updCand cand0 0 IterOrder.forward (absDiff fwd 0))
      ((node_num + UMAX) % U32) IterOrder.backward (absDiff fwd ((node_num + UMAX) % U32)) with
  | some (sd, _) => some sd
  | none => none

/-- The walking epilogue of `bque_item`: walk from the selected start in
the selected direction until the running index reaches `fwd`, update the
fast indexing cache to the reached node and `fwd`, and hand out the
node's buffer and size.  A NULL dereference along the way (or an
uninitialized start) is a crash. -/
def itemFinish (ctx : Ctx) (fwd : Nat) (sel : Option (Nat × IterOrder)) : ItemRes × Ctx :=
  match sel with
  | none => (.crash, ctx)
  | some (s, IterOrder.forward) =>
    match chainWalkF ctx.nodes s (fwd - s) with
    | none => (.crash, ctx)
    | some node => (.ok node.data node.size, { ctx with cacheLast := some (node, fwd) })
  | some (s, IterOrder.backward) =>
    match chainWalkB ctx.nodes s (s - fwd) with
    | none => (.crash, ctx)
    | some node => (.ok node.data node.size, { ctx with cacheLast := some (node, fwd) })

/-- `bque_item`: validate the signed index; when the target equals the
cached index, return the cached node directly (cache unchanged); otherwise
seed the candidate search with the cached node (when present), pick the
closest of cache/head/tail, walk, update the cache and return the buffer. -/
def bque_item (ctx : Ctx) (idx : Int) : ItemRes × Ctx :=
  match itemValidate ctx.nodeNum idx with
  | none => (.err .BAD_IDX, ctx)
  | some fwd =>
    match ctx.cacheLast with
    | some (b, cidx) =>
      if fwd = cidx then (.ok b.data b.size, ctx)
      else
        itemFinish ctx fwd (itemSelect ctx.nodeNum fwd
          (if fwd > cidx then some ((cidx, IterOrder.forward), fwd - cidx)
           else some ((cidx, IterOrder.backward), cidx - fwd)))
    | none => itemFinish ctx fwd (itemSelect ctx.nodeNum fwd none)

/-- The comparator type `bque_sort_cb_t`: compares two buffers given as
contents and size. -/
def SortCb : Type := Option (List Nat) → Nat → Option (List Nat) → Nat → SortRes

/-- Ascending bubble sort swaps an adjacent pair when the comparator says
the left element is greater. -/
def swAsc (cb : SortCb) (a b : Buf) : Bool := cb a.data a.size b.data b.size = SortRes.greater

/-- Descending bubble sort swaps an adjacent pair when the comparator says
the left element is less. -/
def swDesc (cb : SortCb) (a b : Buf) : Bool := cb a.data a.size b.data b.size = SortRes.less

/-- One comparison/swap of the bubble sort inner loop at position `j` of
the node array: compare `node_array[j]` and `node_array[j+1]` and exchange
them when `sw` holds. -/
def swapStep (sw : α → α → Bool) (l : List α) (j : Nat) : List α :=
  match l[j]?, l[j + 1]? with
  | some a, some b => if sw a b then (l.set j b).set (j + 1) a else l
  | _, _ => l

/-- The inner loop of `bque_sort`: `for (j = 0; j < m; j++)` comparing and
swapping adjacent entries. -/
def innerPass (sw : α → α → Bool) (l : List α) (m : Nat) : List α :=
  (List.range m).foldl (swapStep sw) l

/-- The outer loop of `bque_sort`:
`for (i = 0; i < node_num - 1; i++)` with inner bound `node_num - i - 1`. -/
def outerSort (sw : α → α → Bool) (l : List α) (num : Nat) : List α :=
  (List.range (num - 1)).foldl (fun acc i => innerPass sw acc (num - i - 1)) l

/-- `bque_sort`: `BQUE_ERR_EMPTY_QUE` on an empty queue, an immediate
`BQUE_OK` on a single node; otherwise collect the chain into an array
(head to tail), bubble-sort it with the order-dependent swap test, re-link
the chain in array order, and clear the fast indexing cache. -/
def bque_sort (ctx : Ctx) (cb : SortCb) (order : SortOrder) : BqueRes × Ctx :=
  let num := ctx.nodeNum
  if num = 0 then (.EMPTY_QUE, ctx)
  else if num = 1 then (.OK, ctx)
  else
    let sw := match order with | SortOrder.ascending => swAsc cb | SortOrder.descending => swDesc cb
    (.OK, { ctx with nodes := outerSort sw ctx.nodes num, cacheLast := none })

/-- One invocation record of the iteration callback: the arguments
`(idx, num, buff, size)` passed by `bque_foreach`. -/
structure IterCall where
  idx : Nat
  num : Nat
  buff : Option (List Nat)
  size : Nat
deriving DecidableEq

/-- The forward traversal of `bque_foreach`: from the head with
`node_idx = 0`, incrementing. -/
def callsF (num : Nat) : List Buf → Nat → List IterCall
  | [], _ => []
  | b :: t, i => ⟨i, num, b.data, b.size⟩ :: callsF num t (i + 1)

/-- The backward traversal of `bque_foreach` applied to the chain read
tail-to-head: from the tail with `node_idx = node_num - 1`, decrementing
(the C counter is `uint32_t`; the truncated subtraction here agrees with
it as long as the counter does not pass 0, which holds whenever
`node_num` equals the chain length). -/
def callsB (num : Nat) : List Buf → Nat → List IterCall
  | [], _ => []
  | b :: t, i => ⟨i, num, b.data, b.size⟩ :: callsB num t (i - 1)

/-- The sequence of callback invocations `bque_foreach` makes when no
invocation stops the iteration: empty on an empty queue, otherwise the
whole chain forward from index 0 or backward from index `node_num - 1`. -/
def foreachCalls (ctx : Ctx) (order : IterOrder) : List IterCall :=
  if ctx.nodeNum = 0 then []
  else
    match order with
    | IterOrder.forward => callsF ctx.nodeNum ctx.nodes 0
    | IterOrder.backward => callsB ctx.nodeNum ctx.nodes.reverse (ctx.nodeNum - 1)

/-- The iteration driver: invoke the callback on each record in turn and
stop with `BQUE_ERR_ITER_STOP` as soon as an invocation returns it (any
other return value continues the iteration). -/
def runCalls (cb : Nat → Nat → Option (List Nat) → Nat → BqueRes) :
    List IterCall → BqueRes
  | [] => .OK
  | c :: rest => if cb c.idx c.num c.buff c.size = .ITER_STOP then .ITER_STOP else runCalls cb rest

/-- `bque_foreach`: run the callback over the traversal of the chosen
direction, with early exit on `BQUE_ERR_ITER_STOP`. -/
def bque_foreach (ctx : Ctx) (cb : Nat → Nat → Option (List Nat) → Nat → BqueRes)
    (order : IterOrder) : BqueRes :=
  runCalls cb (foreachCalls ctx order)

/-- `bque_option_t`. -/
inductive BqueOpt where
  | getMaxBuffNum
  | setMaxBuffNum
  | getMaxBuffSize
  | setMaxBuffSize
  | setFreeBuffCb
deriving DecidableEq

/-- `bque_option`: the getters write through the argument pointer (no
state change); the setters overwrite the corresponding configuration
field when the argument is non-NULL; registering a free callback has no
observable effect on the modelled state. -/
def bque_option (ctx : Ctx) (opt : BqueOpt) (arg : Option Nat) : BqueRes × Ctx :=
  match opt with
  | BqueOpt.getMaxBuffNum => (.OK, ctx)
  | BqueOpt.setMaxBuffNum =>
    match arg with
    | some v => (.OK, { ctx with nodeNumMax := v })
    | none => (.OK, ctx)
  | BqueOpt.getMaxBuffSize => (.OK, ctx)
  | BqueOpt.setMaxBuffSize =>
    match arg with
    | some v => (.OK, { ctx with buffSizeMax := v })
    | none => (.OK, ctx)
  | BqueOpt.setFreeBuffCb => (.OK, ctx)

/-! ### The state machine

`Step c c'` holds when a single successful-or-failed API call takes the
context `c` to `c'`.  Read-only calls (`bque_stat`, `bque_foreach`, the
option getters - all of which return the context unchanged) are covered by
the setters'/mutators' identity cases or do not appear because they cannot
change the state.  The insertion steps carry the capacity bound
`nodes.length < UMAX`: it models the fact that the 32-bit `node_num` field
(and any real allocator) cannot accommodate 2^32 live nodes, which is what
keeps the unbounded-`Nat` counters of the model in agreement with the
`uint32_t` fields of the C source.  The index of `bque_item` is bounded to
the range of `bque_s32_t`, its C type, and a call whose C execution
dereferences NULL (a crash) has no successor state. -/

/-- One API call, performed on context `c`. -/
inductive Step : Ctx → Ctx → Prop where
  | enqueue (c : Ctx) (buff : Option (List Nat)) (size : Nat)
      (hcap : c.nodes.length < UMAX) : Step c (bque_enqueue c buff size).2
  | preempt (c : Ctx) (buff : Option (List Nat)) (size : Nat)
      (hcap : c.nodes.length < UMAX) : Step c (bque_preempt c buff size).2
  | insert (c : Ctx) (idx : Nat) (buff : Option (List Nat)) (size : Nat)
      (hcap : c.nodes.length < UMAX) : Step c (bque_insert c idx buff size).2
  | dequeue (c : Ctx) : Step c (bque_dequeue c).2
  | forfeit (c : Ctx) : Step c (bque_forfeit c).2
  | drop (c : Ctx) (idx : Nat) : Step c (bque_drop c idx).2
  | empty (c : Ctx) : Step c (bque_empty c).2
  | item (c : Ctx) (idx : Int) (hlo : -2147483648 ≤ idx) (hhi : idx < 2147483648)
      (hok : (bque_item c idx).1 ≠ ItemRes.crash) : Step c (bque_item c idx).2
  | sort (c : Ctx) (cb : SortCb) (order : SortOrder) : Step c (bque_sort c cb order).2
  | option (c : Ctx) (opt : BqueOpt) (arg : Option Nat) : Step c (bque_option c opt arg).2

/-- Contexts reachable from a fresh queue by any sequence of API calls. -/
inductive Reachable : Ctx → Prop where
  | init (conf : Option Conf) : Reachable (bque_new conf)
  | step {c c' : Ctx} : Reachable c → Step c c' → Reachable c'

/-- Well-formedness of a context: the cached count is the chain length,
the chain fits the 32-bit count field, and an occupied fast indexing
cache names exactly the node sitting at its stored forward index. -/
def WF (c : Ctx) : Prop :=
  c.nodeNum = c.nodes.length ∧ c.nodes.length ≤ UMAX ∧
    ∀ b i, c.cacheLast = some (b, i) → c.nodes[i]? = some b

/-! ### Recursive presentation of the bubble sort

`bpassN sw m l` performs the first `m` compare/exchange steps of one
inner-loop pass, carrying the running maximum forward - the standard
recursive reading of the array pass `innerPass`; `bubbleIter` chains the
passes with the shrinking bounds of the outer loop.  Their equivalence
with the array loops is proved below. -/

/-- One bubble pass of at most `m` comparisons. -/
def bpassN (sw : α → α → Bool) : Nat → List α → List α
  | 0, l => l
  | _ + 1, [] => []
  | _ + 1, [a] => [a]
  | m + 1, a :: b :: t => if sw a b then b :: bpassN sw m (a :: t) else a :: bpassN sw m (b :: t)

/-- Passes of bounds `k, k-1, ..., 1`. -/
def bubbleIter (sw : α → α → Bool) : Nat → List α → List α
  | 0, l => l
  | k + 1, l => bubbleIter sw k (bpassN sw (k + 1) l)

/-! ### Trace machines for the FIFO/LIFO claims -/

/-- A command of an enqueue/dequeue trace: `enq bytes` calls
`bque_enqueue(ctx, bytes, |bytes|)`, `deq` calls `bque_dequeue`. -/
inductive QCmd where
  | enq (bytes : List Nat)
  | deq

/-- The buffer handed out for a node: its contents and size. -/
def payload (b : Buf) : Option (List Nat) × Nat := (b.data, b.size)

/-- Run an enqueue/dequeue trace, recording the payloads of the successful
enqueues and the buffers returned by the successful dequeues, in call
order.  Returns (final context, enqueue records, dequeue records). -/
def runFIFO : Ctx → List QCmd → Ctx × List (Option (List Nat) × Nat) × List (Option (List Nat) × Nat)
  | c, [] => (c, [], [])
  | c, QCmd.enq bytes :: rest =>
    let r := bque_enqueue c (some bytes) bytes.length
    let out := runFIFO r.2 rest
    if r.1 = BqueRes.OK then (out.1, (some bytes, bytes.length) :: out.2.1, out.2.2)
    else (out.1, out.2.1, out.2.2)
  | c, QCmd.deq :: rest =>
    match bque_dequeue c with
    | (ItemRes.ok d sz, c') =>
      let out := runFIFO c' rest
      (out.1, out.2.1, (d, sz) :: out.2.2)
    | (_, c') => runFIFO c' rest

/-- A command of a preempt/dequeue trace: `pre bytes` calls
`bque_preempt(ctx, bytes, |bytes|)`, `deq` calls `bque_dequeue`
(removal at the head). -/
inductive PCmd where
  | pre (bytes : List Nat)
  | deq

/-- Run a preempt/dequeue trace, recording the buffers returned by the
successful dequeues in call order. -/
def runLIFO : Ctx → List PCmd → Ctx × List (Option (List Nat) × Nat)
  | c, [] => (c, [])
  | c, PCmd.pre bytes :: rest => runLIFO (bque_preempt c (some bytes) bytes.length).2 rest
  | c, PCmd.deq :: rest =>
    match bque_dequeue c with
    | (ItemRes.ok d sz, c') =>
      let out := runLIFO c' rest
      (out.1, (d, sz) :: out.2)
    | (_, c') => runLIFO c' rest

/-- Modelled from the spec: "for preempt/forfeit, most-recently-preempted
is removed first (LIFO at head)" - the reference push, guarded by the same
capacity and size validation the spec gives the insertion operations
(reject when the configured maximum count is reached or the size is zero
or above the configured maximum; 0 means unbounded). -/
def specStackPush (maxN maxS : Nat) (st : List (List Nat)) (v : List Nat) :
    List (List Nat) :=
  if (maxN ≠ 0 ∧ st.length + 1 > maxN) ∨ v.length = 0 ∨ (maxS ≠ 0 ∧ v.length > maxS) then st
  else v :: st

/-- Modelled from the spec: the LIFO reference machine - a stack of byte
buffers; `pre` pushes (subject to validation), `deq` pops the most
recently pushed buffer and records it.  Returns (final stack, records). -/
def specStackRun (maxN maxS : Nat) : List (List Nat) → List PCmd → List (List Nat) × List (List Nat)
  | st, [] => (st, [])
  | st, PCmd.pre v :: rest => specStackRun maxN maxS (specStackPush maxN maxS st v) rest
  | st, PCmd.deq :: rest =>
    match st with
    | [] => specStackRun maxN maxS [] rest
    | v :: st' =>
      let out := specStackRun maxN maxS st' rest
      (out.1, v :: out.2)

/-! ### Concrete objects for witnesses and counterexamples -/

/-- A concrete comparator: order buffers by size. -/
def cbSize : SortCb := fun _ sa _ sb =>
  if sa < sb then SortRes.less else if sb < sa then SortRes.greater else SortRes.equal

/-- A default-configured context after `enqueue [5]` - one node, cache
empty. -/
def ctxOne : Ctx := (bque_enqueue (bque_new none) (some [5]) 1).2

/-- `ctxOne` after `item(0)` - one node, cache occupied with index 0. -/
def ctxOneCached : Ctx := (bque_item ctxOne 0).2

/-- A default-configured context holding `[7]` then `[5]` (head to
tail). -/
def ctxTwo : Ctx := (bque_enqueue (bque_enqueue (bque_new none) (some [7]) 1).2 (some [5]) 1).2

/-- A three-node context with sizes 3, 1, 2 head-to-tail (well-formed by
construction; used to exercise the sort). -/
def ctxThree : Ctx :=
  ⟨[⟨0, some [9, 9, 9], 3⟩, ⟨1, some [4], 1⟩, ⟨2, some [6, 6], 2⟩], 0, 0, 3, none, 3⟩

/-- A default-configured context filled to its 1024-node capacity. -/
def ctxCap : Ctx :=
  ⟨(List.range 1024).map (fun i => ⟨i, some [0], 1⟩), 1024, 1024, 1024, none, 1024⟩

/-- Goodness of a walk start: it lies on the chain and the walk direction
moves toward the target. -/
def GoodStart (len fwd : Nat) (p : Nat × IterOrder) : Prop :=
  p.1 < len ∧
    ((p.2 = IterOrder.forward ∧ p.1 ≤ fwd) ∨ (p.2 = IterOrder.backward ∧ fwd ≤ p.1))

/-- The embedding of a spec-stack buffer as a queue payload. -/
def stackPayload (v : List Nat) : Option (List Nat) × Nat := (some v, v.length)

/-- The invariant threaded through the outer loop of the bubble sort: the
suffix from position `m` on is already in non-decreasing swap-order and
dominates everything before it. -/
def PassInv (sw : α → α → Bool) (m : Nat) (l : List α) : Prop :=
  (l.drop m).Pairwise (fun a b => sw a b = false) ∧
    ∀ a ∈ l.take m, ∀ b ∈ l.drop m, sw a b = false

/-! ## General lemmas -/

/-- The `uint32_t` value of `node_num - 1` for a non-zero count that fits
in 32 bits. -/
theorem idxMax_eq {n : Nat} (h1 : 1 ≤ n) (h2 : n ≤ U32) : (n + UMAX) % U32 = n - 1 := by
  have h : n + UMAX = (n - 1) + U32 := by
    unfold U32 UMAX at *
    omega
  rw [h, Nat.add_mod_right]
  apply Nat.mod_eq_of_lt
  unfold U32 UMAX at *
  omega

theorem absDiff_zero (a : Nat) : absDiff a 0 = a := by
  unfold absDiff; split <;> omega

theorem absDiff_of_le {a b : Nat} (h : a ≤ b) : absDiff a b = b - a := by
  unfold absDiff; split <;> omega

theorem chainWalkF_spec (nodes : List Buf) :
    ∀ steps s, chainWalkF nodes s steps = nodes[s + steps]? := by
  intro steps
  induction steps with
  | zero => intro s; rfl
  | succ k ih =>
    intro s
    show chainWalkF nodes (s + 1) k = _
    rw [ih]
    congr 1
    omega

theorem chainWalkB_spec (nodes : List Buf) :
    ∀ steps s, steps ≤ s → chainWalkB nodes s steps = nodes[s - steps]? := by
  intro steps
  induction steps with
  | zero => intro s _; rfl
  | succ k ih =>
    intro s hs
    show (if s = 0 then none else chainWalkB nodes (s - 1) k) = _
    rw [if_neg (by omega), ih (s - 1) (by omega)]
    congr 1
    omega

theorem updCand_good {G : Nat × IterOrder → Prop} {cand : Option ((Nat × IterOrder) × Nat)}
    {pos : Nat} {dir : IterOrder} {dd : Nat}
    (h : ∀ p d, cand = some (p, d) → G p) (hnew : G (pos, dir)) :
    ∀ p d, updCand cand pos dir dd = some (p, d) → G p := by
  intro p d
  unfold updCand
  split
  · intro hp
    injection hp with hp
    injection hp with hp1 _
    exact hp1 ▸ hnew
  · exact h p d

theorem updCand_isSome {cand : Option ((Nat × IterOrder) × Nat)}
    {pos : Nat} {dir : IterOrder} {dd : Nat}
    (h : cand.isSome ∨ dd < candDiff cand) : (updCand cand pos dir dd).isSome := by
  unfold updCand
  split
  · rfl
  · rcases h with h | h
    · exact h
    · omega

/-- Whenever the target index is in range (and the seed candidate, when
present, is a good start), the candidate selection of `bque_item` returns
a good start. -/
theorem itemSelect_good (num fwd : Nat) (cand0 : Option ((Nat × IterOrder) × Nat))
    (hnum2 : num ≤ UMAX) (hfwd : fwd < num)
    (hc : ∀ p d, cand0 = some (p, d) → GoodStart num fwd p) :
    ∃ s dir, itemSelect num fwd cand0 = some (s, dir) ∧ GoodStart num fwd (s, dir) := by
  have hM : (num + UMAX) % U32 = num - 1 :=
    idxMax_eq (by omega) (by unfold UMAX U32 at *; omega)
  have hgood1 : ∀ p d,
      updCand cand0 0 IterOrder.forward (absDiff fwd 0) = some (p, d) → GoodStart num fwd p :=
    updCand_good hc ⟨by omega, Or.inl ⟨rfl, by omega⟩⟩
  have hgood2 : ∀ p d,
      updCand (updCand cand0 0 IterOrder.forward (absDiff fwd 0))
        ((num + UMAX) % U32) IterOrder.backward (absDiff fwd ((num + UMAX) % U32)) =
        some (p, d) → GoodStart num fwd p := by
    rw [hM]
    exact updCand_good hgood1 ⟨by omega, Or.inr ⟨rfl, by omega⟩⟩
  have hsome1 : (updCand cand0 0 IterOrder.forward (absDiff fwd 0)).isSome := by
    apply updCand_isSome
    cases hcc : cand0 with
    | some v => exact Or.inl rfl
    | none =>
      right
      rw [absDiff_zero]
      rw [show candDiff none = UMAX from rfl]
      omega
  have hsome2 : (updCand (updCand cand0 0 IterOrder.forward (absDiff fwd 0))
      ((num + UMAX) % U32) IterOrder.backward (absDiff fwd ((num + UMAX) % U32))).isSome :=
    updCand_isSome (Or.inl hsome1)
  unfold itemSelect
  match hres : updCand (updCand cand0 0 IterOrder.forward (absDiff fwd 0))
      ((num + UMAX) % U32) IterOrder.backward (absDiff fwd ((num + UMAX) % U32)) with
  | none => rw [hres] at hsome2; exact absurd hsome2 (by simp)
  | some (⟨s, dir⟩, d) =>
    exact ⟨s, dir, rfl, hgood2 _ _ hres⟩

/-- The walking epilogue reaches exactly the node at the target forward
index when started from a good start. -/
theorem itemFinish_spec (c : Ctx) (fwd s : Nat) (dir : IterOrder)
    (hf : fwd < c.nodes.length) (hdir : GoodStart c.nodes.length fwd (s, dir)) :
    itemFinish c fwd (some (s, dir)) =
      (ItemRes.ok (c.nodes.get ⟨fwd, hf⟩).data (c.nodes.get ⟨fwd, hf⟩).size,
        { c with cacheLast := some (c.nodes.get ⟨fwd, hf⟩, fwd) }) := by
  have hget : c.nodes[fwd]? = some (c.nodes.get ⟨fwd, hf⟩) := by
    rw [List.getElem?_eq_getElem hf]
    rfl
  rcases hdir with ⟨hs, ⟨hd, hle⟩ | ⟨hd, hle⟩⟩ <;> simp only at hs hle <;> subst hd
  · simp only [itemFinish]
    rw [chainWalkF_spec, show s + (fwd - s) = fwd by omega, hget]
  · simp only [itemFinish]
    rw [chainWalkB_spec _ _ _ (by omega), show s - (s - fwd) = fwd by omega, hget]

/-- Validation success forces the forward index into range whenever the
count is non-zero and fits the 32-bit field. -/
theorem itemValidate_lt {num : Nat} {idx : Int} {fwd : Nat}
    (hnum : 1 ≤ num) (hcap : num ≤ UMAX)
    (hv : itemValidate num idx = some fwd) : fwd < num := by
  have hM : (num + UMAX) % U32 = num - 1 :=
    idxMax_eq (by omega) (by unfold UMAX U32 at *; omega)
  unfold itemValidate at hv
  rw [hM] at hv
  split at hv
  · split at hv
    · exact absurd hv (by simp)
    · injection hv with hv
      omega
  · split at hv
    · exact absurd hv (by simp)
    · injection hv with hv
      omega

theorem ctx_cache_eta (c : Ctx) : { c with cacheLast := c.cacheLast } = c := rfl

/-- Full characterization of a successful `bque_item` call on a
well-formed context: the returned buffer is the one at the resolved
forward index, and the fast indexing cache is left naming exactly that
node at that index. -/
theorem bque_item_ok (c : Ctx) (idx : Int) (hwf : WF c) {fwd : Nat}
    (hv : itemValidate c.nodeNum idx = some fwd) (hfwd : fwd < c.nodes.length) :
    bque_item c idx =
      (ItemRes.ok (c.nodes.get ⟨fwd, hfwd⟩).data (c.nodes.get ⟨fwd, hfwd⟩).size,
        { c with cacheLast := some (c.nodes.get ⟨fwd, hfwd⟩, fwd) }) := by
  obtain ⟨hnl, hcap, hcache⟩ := hwf
  cases hc : c.cacheLast with
  | none =>
    obtain ⟨s, dir, hsel, hgood⟩ :=
      itemSelect_good c.nodeNum fwd none (by omega) (by omega) (by intro p d h; cases h)
    simp only [bque_item, hv, hc, hsel]
    exact itemFinish_spec c fwd s dir hfwd (by rw [← hnl]; exact hgood)
  | some bi =>
    rcases bi with ⟨b, cidx⟩
    have hbc := hcache b cidx hc
    have hcidx : cidx < c.nodes.length := by
      by_contra hge
      rw [List.getElem?_eq_none (by omega)] at hbc
      cases hbc
    have hb : b = c.nodes.get ⟨cidx, hcidx⟩ := by
      rw [List.getElem?_eq_getElem hcidx] at hbc
      injection hbc with hbc
      exact hbc.symm
    by_cases heq : fwd = cidx
    · simp only [bque_item, hv, hc, if_pos heq]
      subst heq
      have : c.nodes.get ⟨fwd, hfwd⟩ = b := by rw [hb]
      rw [this, ← hc, ctx_cache_eta]
    · by_cases hgt : fwd > cidx
      · obtain ⟨s, dir, hsel, hgood⟩ :=
          itemSelect_good c.nodeNum fwd (some ((cidx, IterOrder.forward), fwd - cidx))
            (by omega) (by omega)
            (by
              intro p d h
              injection h with h
              injection h with h1 _
              subst h1
              exact ⟨by omega, Or.inl ⟨rfl, by omega⟩⟩)
        simp only [bque_item, hv, hc, if_neg heq, if_pos hgt, hsel]
        exact itemFinish_spec c fwd s dir hfwd (by rw [← hnl]; exact hgood)
      · obtain ⟨s, dir, hsel, hgood⟩ :=
          itemSelect_good c.nodeNum fwd (some ((cidx, IterOrder.backward), cidx - fwd))
            (by omega) (by omega)
            (by
              intro p d h
              injection h with h
              injection h with h1 _
              subst h1
              exact ⟨by omega, Or.inr ⟨rfl, by omega⟩⟩)
        simp only [bque_item, hv, hc, if_neg heq, if_neg hgt, hsel]
        exact itemFinish_spec c fwd s dir hfwd (by rw [← hnl]; exact hgood)

/-! ## Claim C1 -/

/-- Claim C1 (code evidence): on an empty default queue, `bque_dequeue`
does return `BQUE_ERR_EMPTY_QUE`, but `bque_item(0)` does not return
`BQUE_ERR_BAD_IDX`: the `uint32_t` expression `node_num - 1` underflows to
4294967295 when `node_num == 0`, so the bounds check passes every
non-negative index and the function walks from the NULL `head_node`,
dereferencing it - a crash. -/
theorem C1_item_empty_underflow :
    (bque_item (bque_new none) 0).1 = ItemRes.crash ∧
    (bque_item (bque_new none) 0).1 ≠ ItemRes.err BqueRes.BAD_IDX ∧
    (bque_dequeue (bque_new none)).1 = ItemRes.err BqueRes.EMPTY_QUE := by
  refine ⟨by decide, by decide, by decide⟩

/-! ## Claim C2 -/

/-- Claim C2 (counterexample): inserting at index 1 into an empty,
non-full, default-configured queue with a valid size is rejected with
`BQUE_ERR_BAD_OFFS` (the spec's distinct "invalid offset" code), not with
`BQUE_ERR_BAD_IDX`, refuting the claim that the rejection uses the
BadIndex (InvalidIndex) error. -/
theorem C2_counterexample :
    bque_insert (bque_new none) 1 (some [7]) 1 = (BqueRes.BAD_OFFS, bque_new none) ∧
    BqueRes.BAD_OFFS ≠ BqueRes.BAD_IDX := by
  refine ⟨by decide, by decide⟩

/-- Claim C2 (amended): on a non-full queue with a valid size, any insert
index strictly greater than `node_num` is rejected with
`BQUE_ERR_BAD_OFFS` and the queue state is unchanged. -/
theorem C2_insert_bad_offset (c : Ctx) (idx : Nat) (buff : Option (List Nat)) (size : Nat)
    (hfull : ¬ fullCheck c) (hsize : ¬ badSizeCheck c size) (hidx : idx > c.nodeNum) :
    bque_insert c idx buff size = (BqueRes.BAD_OFFS, c) := by
  unfold bque_insert
  rw [if_neg hfull, if_neg hsize, if_pos hidx]

/-- Witness for C2: the amended statement at a concrete input. -/
theorem C2_witness :
    ¬ fullCheck (bque_new none) ∧ ¬ badSizeCheck (bque_new none) 1 ∧
    1 > (bque_new none).nodeNum ∧
    bque_insert (bque_new none) 1 (some [7]) 1 = (BqueRes.BAD_OFFS, bque_new none) :=
  ⟨by decide, by decide, by decide,
    C2_insert_bad_offset (bque_new none) 1 (some [7]) 1 (by decide) (by decide) (by decide)⟩

/-! ## Claim C4 -/

/-- Claim C4 (counterexample): `bque_sort` on an empty queue returns
`BQUE_ERR_EMPTY_QUE`, not success, refuting the claim that sort succeeds
whenever `count <= 1`. -/
theorem C4_counterexample :
    (bque_sort (bque_new none) cbSize SortOrder.ascending).1 = BqueRes.EMPTY_QUE ∧
    (bque_sort (bque_new none) cbSize SortOrder.ascending).1 ≠ BqueRes.OK := by
  refine ⟨by decide, by decide⟩

/-- Claim C4 (amended): with `count <= 1`, `bque_sort` never consults the
comparator or the order and never changes the queue: on `count == 0` it
rejects with `BQUE_ERR_EMPTY_QUE`, and on `count == 1` it is a successful
no-op. -/
theorem C4_sort_small (c : Ctx) (cb cb' : SortCb) (ord ord' : SortOrder)
    (h : c.nodeNum ≤ 1) :
    bque_sort c cb ord = bque_sort c cb' ord' ∧
    (c.nodeNum = 0 → bque_sort c cb ord = (BqueRes.EMPTY_QUE, c)) ∧
    (c.nodeNum = 1 → bque_sort c cb ord = (BqueRes.OK, c)) := by
  rcases Nat.le_one_iff_eq_zero_or_eq_one.mp h with h0 | h1
  · refine ⟨?_, fun _ => ?_, fun h1 => absurd (h0 ▸ h1) (by simp)⟩ <;>
      simp [bque_sort, h0]
  · refine ⟨?_, fun h0 => absurd (h1 ▸ h0) (by simp), fun _ => ?_⟩ <;>
      simp [bque_sort, h1]

/-- Witness for C4: the amended statement at a concrete one-node queue. -/
theorem C4_witness :
    ctxOne.nodeNum ≤ 1 ∧
    bque_sort ctxOne cbSize SortOrder.ascending = bque_sort ctxOne cbSize SortOrder.descending ∧
    (ctxOne.nodeNum = 1 → bque_sort ctxOne cbSize SortOrder.ascending = (BqueRes.OK, ctxOne)) :=
  ⟨by decide,
    (C4_sort_small ctxOne cbSize cbSize SortOrder.ascending SortOrder.descending (by decide)).1,
    (C4_sort_small ctxOne cbSize cbSize SortOrder.ascending SortOrder.descending (by decide)).2.2⟩

/-! ## Claim C10 -/

/-- Claim C10: a context created with a NULL configuration defaults both
maxima to 1024, so with the default configuration an enqueue onto a queue
already holding 1024 nodes is rejected as full (the 1025th enqueue), and
an enqueue of more than 1024 bytes onto a non-full queue is rejected for
its size; both rejections leave the queue unchanged. -/
theorem C10_default_bounds :
    (bque_new none).nodeNumMax = 1024 ∧ (bque_new none).buffSizeMax = 1024 ∧
    (∀ (c : Ctx) (buff : Option (List Nat)) (size : Nat),
      c.nodeNumMax = 1024 → c.nodeNum = 1024 →
      bque_enqueue c buff size = (BqueRes.FULL_QUE, c)) ∧
    (∀ (c : Ctx) (buff : Option (List Nat)) (size : Nat),
      c.buffSizeMax = 1024 → c.nodeNum < c.nodeNumMax → 1024 < size →
      bque_enqueue c buff size = (BqueRes.BAD_SIZE, c)) := by
  refine ⟨rfl, rfl, fun c buff size hmax hnum => ?_, fun c buff size hmax hlt hsz => ?_⟩
  · unfold bque_enqueue
    rw [if_pos ⟨by omega, by omega⟩]
  · unfold bque_enqueue
    rw [if_neg (show ¬ fullCheck c by rintro ⟨-, h⟩; omega),
      if_pos (show badSizeCheck c size from Or.inr ⟨by omega, by omega⟩)]

/-! ## Operation step lemmas -/

/-- A validated `bque_enqueue` appends one node at the tail and leaves the
cache untouched. -/
theorem bque_enqueue_ok (c : Ctx) (buff : Option (List Nat)) (size : Nat)
    (hnl : c.nodeNum = c.nodes.length)
    (hfull : ¬ fullCheck c) (hsize : ¬ badSizeCheck c size) :
    bque_enqueue c buff size =
      (BqueRes.OK,
        { c with
          nodes := c.nodes ++ [⟨c.nextId, buff, size⟩]
          nodeNum := c.nodeNum + 1
          nextId := c.nextId + 1 }) := by
  cases hns : c.nodes with
  | nil =>
    have h0 : c.nodeNum = 0 := by rw [hnl, hns]; rfl
    simp [bque_enqueue, create_node, hfull, hsize, hns, h0]
  | cons hd tl =>
    simp [bque_enqueue, create_node, hfull, hsize, hns]

/-- A rejected `bque_enqueue` leaves the state unchanged and does not
report `BQUE_OK`. -/
theorem bque_enqueue_fail (c : Ctx) (buff : Option (List Nat)) (size : Nat)
    (h : fullCheck c ∨ badSizeCheck c size) :
    (bque_enqueue c buff size).1 ≠ BqueRes.OK ∧ (bque_enqueue c buff size).2 = c := by
  by_cases hfull : fullCheck c
  · simp [bque_enqueue, hfull]
  · have hsize : badSizeCheck c size := h.resolve_left hfull
    simp [bque_enqueue, hfull, hsize]

/-- A validated `bque_preempt` links one node at the head and shifts an
occupied cache index up by one. -/
theorem bque_preempt_ok (c : Ctx) (buff : Option (List Nat)) (size : Nat)
    (hnl : c.nodeNum = c.nodes.length)
    (hfull : ¬ fullCheck c) (hsize : ¬ badSizeCheck c size) :
    bque_preempt c buff size =
      (BqueRes.OK,
        { c with
          nodes := ⟨c.nextId, buff, size⟩ :: c.nodes
          nodeNum := c.nodeNum + 1
          nextId := c.nextId + 1
          cacheLast :=
            match c.cacheLast with
            | some (b, i) => some (b, i + 1)
            | none => none }) := by
  cases hns : c.nodes with
  | nil =>
    have h0 : c.nodeNum = 0 := by rw [hnl, hns]; rfl
    simp [bque_preempt, create_node, hfull, hsize, hns, h0]
  | cons hd tl =>
    simp [bque_preempt, create_node, hfull, hsize, hns]

/-- A rejected `bque_preempt` leaves the state unchanged and does not
report `BQUE_OK`. -/
theorem bque_preempt_fail (c : Ctx) (buff : Option (List Nat)) (size : Nat)
    (h : fullCheck c ∨ badSizeCheck c size) :
    (bque_preempt c buff size).1 ≠ BqueRes.OK ∧ (bque_preempt c buff size).2 = c := by
  by_cases hfull : fullCheck c
  · simp [bque_preempt, hfull]
  · have hsize : badSizeCheck c size := h.resolve_left hfull
    simp [bque_preempt, hfull, hsize]

/-- `bque_dequeue` on a well-formed empty queue. -/
theorem bque_dequeue_empty (c : Ctx) (h0 : c.nodeNum = 0) :
    bque_dequeue c = (ItemRes.err BqueRes.EMPTY_QUE, c) := by
  simp [bque_dequeue, h0]

/-- `bque_dequeue` on a well-formed non-empty queue removes the head and
shifts the cache down (clearing it when it named the head). -/
theorem bque_dequeue_cons (c : Ctx) (hd : Buf) (tl : List Buf)
    (hns : c.nodes = hd :: tl) (hnl : c.nodeNum = c.nodes.length) :
    bque_dequeue c =
      (ItemRes.ok hd.data hd.size,
        { c with
          nodes := tl
          nodeNum := c.nodeNum - 1
          cacheLast :=
            match c.cacheLast with
            | some (b, i) => if i = 0 then none else some (b, i - 1)
            | none => none }) := by
  have hnum : c.nodeNum = tl.length + 1 := by rw [hnl, hns]; rfl
  by_cases h1 : c.nodeNum = 1
  · have htl : tl = [] := by
      have : tl.length = 0 := by omega
      exact List.eq_nil_of_length_eq_zero this
    subst htl
    simp [bque_dequeue, hns, h1, show c.nodeNum ≠ 0 by omega]
  · simp [bque_dequeue, hns, h1, show c.nodeNum ≠ 0 by omega]

theorem getElem?_some_lt {α : Type} {l : List α} {i : Nat} {b : α}
    (h : l[i]? = some b) : i < l.length := by
  by_contra hge
  rw [List.getElem?_eq_none (by omega)] at h
  cases h

/-- A validated `bque_insert` splices one node in before position `idx`
and shifts the cached index up when it is at or beyond the insertion
point. -/
theorem bque_insert_ok (c : Ctx) (idx : Nat) (buff : Option (List Nat)) (size : Nat)
    (hnl : c.nodeNum = c.nodes.length)
    (hfull : ¬ fullCheck c) (hsize : ¬ badSizeCheck c size) (hidx : idx ≤ c.nodeNum) :
    bque_insert c idx buff size =
      (BqueRes.OK,
        { c with
          nodes := c.nodes.take idx ++ ⟨c.nextId, buff, size⟩ :: c.nodes.drop idx
          nodeNum := c.nodeNum + 1
          nextId := c.nextId + 1
          cacheLast :=
            match c.cacheLast with
            | some (b, i) => if i ≥ idx then some (b, i + 1) else some (b, i)
            | none => none }) := by
  have hno : ¬ (idx > c.nodeNum) := by omega
  by_cases h0 : idx = 0
  · subst h0
    cases hns : c.nodes with
    | nil => simp [bque_insert, create_node, hfull, hsize, hno, hns]
    | cons hd tl => simp [bque_insert, create_node, hfull, hsize, hno, hns]
  · by_cases hend : idx = c.nodeNum
    · subst hend
      have htk : c.nodes.take c.nodeNum = c.nodes := by simp [hnl]
      have hdr : c.nodes.drop c.nodeNum = ([] : List Buf) := by simp [hnl]
      simp [bque_insert, create_node, hfull, hsize, hno, h0, htk, hdr]
    · simp [bque_insert, create_node, hfull, hsize, hno, h0, hend]

/-- A validated `bque_forfeit` removes the tail node and clears the cache
exactly when it named that node. -/
theorem bque_forfeit_last (c : Ctx) (lastNode : Buf)
    (hl : c.nodes.getLast? = some lastNode) (hnl : c.nodeNum = c.nodes.length) :
    bque_forfeit c =
      (ItemRes.ok lastNode.data lastNode.size,
        { c with
          nodes := c.nodes.dropLast
          nodeNum := c.nodeNum - 1
          cacheLast :=
            match c.cacheLast with
            | some (b, i) => if i = c.nodeNum - 1 then none else some (b, i)
            | none => none }) := by
  have hne : c.nodes ≠ [] := by
    intro hh
    rw [hh] at hl
    cases hl
  have hlen1 : 1 ≤ c.nodes.length := by
    cases hcn : c.nodes with
    | nil => exact absurd hcn hne
    | cons a t => simp
  have hnum0 : ¬ (c.nodeNum = 0) := by omega
  by_cases h1 : c.nodeNum = 1
  · obtain ⟨x, hx⟩ := List.length_eq_one.mp (by omega : c.nodes.length = 1)
    have hdl : c.nodes.dropLast = [] := by rw [hx]; rfl
    simp [bque_forfeit, hl, hnum0, h1, hdl]
  · simp [bque_forfeit, hl, hnum0, h1]

/-- A validated `bque_drop` removes the node at position `idx`, clears the
cache when it named that node, and shifts it down when it sat beyond it. -/
theorem bque_drop_ok (c : Ctx) (idx : Nat) (node : Buf)
    (hnd : c.nodes[idx]? = some node) (hnl : c.nodeNum = c.nodes.length)
    (hidx : idx < c.nodeNum) :
    bque_drop c idx =
      (ItemRes.ok node.data node.size,
        { c with
          nodes := c.nodes.take idx ++ c.nodes.drop (idx + 1)
          nodeNum := c.nodeNum - 1
          cacheLast :=
            match c.cacheLast with
            | some (b, i) =>
              if i = idx then none else if i > idx then some (b, i - 1) else some (b, i)
            | none => none }) := by
  have hnum0 : ¬ (c.nodeNum = 0) := by omega
  have hge : ¬ (idx ≥ c.nodeNum) := by omega
  by_cases h1 : c.nodeNum = 1
  · have hi0 : idx = 0 := by omega
    subst hi0
    obtain ⟨x, hx⟩ := List.length_eq_one.mp (by omega : c.nodes.length = 1)
    rw [hx] at hnd
    simp only [List.getElem?_cons_zero, Option.some.injEq] at hnd
    subst hnd
    simp [bque_drop, hx, hnum0, hge, h1]
  · by_cases hi0 : idx = 0
    · subst hi0
      simp [bque_drop, hnd, hnum0, hge, h1, List.drop_one]
    · by_cases hlast : idx = c.nodeNum - 1
      · have hdl : c.nodes.take (c.nodeNum - 1) ++ c.nodes.drop (c.nodeNum - 1 + 1) =
            c.nodes.dropLast := by
          rw [List.dropLast_eq_take, show c.nodes.length - 1 = c.nodeNum - 1 by omega,
            List.drop_eq_nil_of_le (by omega), List.append_nil]
        have hnd2 : c.nodes[c.nodeNum - 1]? = some node := by
          rw [← hlast]
          exact hnd
        have hne0 : ¬ (c.nodeNum - 1 = 0) := by omega
        have hge2 : ¬ (c.nodeNum ≤ c.nodeNum - 1) := by omega
        simp [bque_drop, hnd2, hnum0, hge, h1, hlast, hne0, hge2, hdl]
      · simp [bque_drop, hnd, hnum0, hge, h1, hi0, hlast]

/-- A rejected `bque_insert` leaves the state unchanged and does not
report `BQUE_OK`. -/
theorem bque_insert_fail (c : Ctx) (idx : Nat) (buff : Option (List Nat)) (size : Nat)
    (h : fullCheck c ∨ badSizeCheck c size ∨ idx > c.nodeNum) :
    (bque_insert c idx buff size).1 ≠ BqueRes.OK ∧ (bque_insert c idx buff size).2 = c := by
  by_cases hfull : fullCheck c
  · simp [bque_insert, hfull]
  · by_cases hsize : badSizeCheck c size
    · simp [bque_insert, hfull, hsize]
    · have hidx : idx > c.nodeNum := by tauto
      simp [bque_insert, hfull, hsize, hidx]

/-- On an empty well-formed queue (NULL head, empty cache), `bque_item`
with any representable non-negative index dereferences NULL: the 32-bit
underflow of `node_num - 1` lets the index through validation and the
walk starts at the NULL `head_node`. -/
theorem bque_item_empty_crash (c : Ctx) (idx : Int) (h0 : 0 ≤ idx) (hhi : idx < 2147483648)
    (hnum : c.nodeNum = 0) (hnil : c.nodes = []) (hcl : c.cacheLast = none) :
    (bque_item c idx).1 = ItemRes.crash := by
  have hMz : (0 + UMAX) % U32 = UMAX := by decide
  have hfwdlt : idx.toNat < UMAX := by
    unfold UMAX
    omega
  have hv : itemValidate c.nodeNum idx = some idx.toNat := by
    unfold itemValidate
    rw [if_pos h0, hnum, hMz, if_neg (by omega)]
  have hsel : itemSelect c.nodeNum idx.toNat none = some (0, IterOrder.forward) := by
    unfold itemSelect updCand
    rw [hnum, hMz, absDiff_zero,
      show candDiff none = UMAX from rfl, if_pos hfwdlt,
      show candDiff (some ((0, IterOrder.forward), idx.toNat)) = idx.toNat from rfl,
      absDiff_of_le (by omega), if_neg (by unfold UMAX; omega)]
  simp only [bque_item, hv, hcl, hsel, itemFinish]
  rw [chainWalkF_spec, hnil]
  simp

/-! ## Claim C6 -/

/-- Trace invariant of enqueue/dequeue runs: on a well-formed context the
payloads already queued followed by the payloads of the future successful
enqueues equal the payloads returned by the future successful dequeues
followed by the final queue contents - removal order is insertion order. -/
theorem runFIFO_spec : ∀ (cs : List QCmd) (c : Ctx), c.nodeNum = c.nodes.length →
    (runFIFO c cs).1.nodeNum = (runFIFO c cs).1.nodes.length ∧
    c.nodes.map payload ++ (runFIFO c cs).2.1 =
      (runFIFO c cs).2.2 ++ (runFIFO c cs).1.nodes.map payload := by
  intro cs
  induction cs with
  | nil => intro c h; simp [runFIFO, h]
  | cons cmd rest ih =>
    intro c h
    cases cmd with
    | enq bytes =>
      by_cases hrej : fullCheck c ∨ badSizeCheck c bytes.length
      · obtain ⟨hne, hid⟩ := bque_enqueue_fail c (some bytes) bytes.length hrej
        have heq : runFIFO c (QCmd.enq bytes :: rest) = runFIFO c rest := by
          simp only [runFIFO, hid, if_neg hne]
        rw [heq]
        exact ih c h
      · push_neg at hrej
        have hok := bque_enqueue_ok c (some bytes) bytes.length h hrej.1 hrej.2
        have heq : runFIFO c (QCmd.enq bytes :: rest) =
            ((runFIFO (bque_enqueue c (some bytes) bytes.length).2 rest).1,
              (some bytes, bytes.length) ::
                (runFIFO (bque_enqueue c (some bytes) bytes.length).2 rest).2.1,
              (runFIFO (bque_enqueue c (some bytes) bytes.length).2 rest).2.2) := by
          simp [runFIFO, hok]
        rw [heq, hok]
        obtain ⟨ih1, ih2⟩ := ih (bque_enqueue c (some bytes) bytes.length).2
          (by rw [hok]; simp; omega)
        rw [hok] at ih1 ih2
        refine ⟨ih1, ?_⟩
        simp only [List.map_append] at ih2
        rw [← ih2]
        simp [payload]
    | deq =>
      cases hns : c.nodes with
      | nil =>
        have h0 : c.nodeNum = 0 := by rw [h, hns]; rfl
        have heq : runFIFO c (QCmd.deq :: rest) = runFIFO c rest := by
          simp only [runFIFO, bque_dequeue_empty c h0]
        rw [heq]
        simpa [hns] using ih c h
      | cons hd tl =>
        have hdq := bque_dequeue_cons c hd tl hns h
        have heq : runFIFO c (QCmd.deq :: rest) =
            ((runFIFO (bque_dequeue c).2 rest).1,
              (runFIFO (bque_dequeue c).2 rest).2.1,
              (hd.data, hd.size) :: (runFIFO (bque_dequeue c).2 rest).2.2) := by
          simp only [runFIFO, hdq]
        rw [heq, hdq]
        obtain ⟨ih1, ih2⟩ := ih (bque_dequeue c).2
          (by rw [hdq]; simp; rw [h, hns]; simp)
        rw [hdq] at ih1 ih2
        refine ⟨ih1, ?_⟩
        simp only [hns, List.map_cons, List.cons_append, ih2]
        rfl

/-- Trace invariant of preempt/dequeue runs: on a well-formed context
whose queued payloads agree with a reference stack, the buffer-queue run
and the spec's LIFO stack machine produce the same dequeue records and
end with the same contents. -/
theorem runLIFO_spec (maxN maxS : Nat) :
    ∀ (cs : List PCmd) (c : Ctx) (st : List (List Nat)),
      c.nodeNumMax = maxN → c.buffSizeMax = maxS → c.nodeNum = c.nodes.length →
      c.nodes.map payload = st.map stackPayload →
      (runLIFO c cs).2 = (specStackRun maxN maxS st cs).2.map stackPayload ∧
      (runLIFO c cs).1.nodes.map payload = (specStackRun maxN maxS st cs).1.map stackPayload := by
  intro cs
  induction cs with
  | nil =>
    intro c st h1 h2 h3 h4
    exact ⟨rfl, h4⟩
  | cons cmd rest ih =>
    intro c st h1 h2 h3 h4
    have hlen : c.nodes.length = st.length := by
      have := congrArg List.length h4
      simpa using this
    cases cmd with
    | pre v =>
      have hcond : ((maxN ≠ 0 ∧ st.length + 1 > maxN) ∨ v.length = 0 ∨
          (maxS ≠ 0 ∧ v.length > maxS)) ↔ (fullCheck c ∨ badSizeCheck c v.length) := by
        unfold fullCheck badSizeCheck
        rw [h1, h2, h3, hlen]
      by_cases hrej : fullCheck c ∨ badSizeCheck c v.length
      · obtain ⟨hne, hid⟩ := bque_preempt_fail c (some v) v.length hrej
        have hpush : specStackPush maxN maxS st v = st := by
          unfold specStackPush
          rw [if_pos (hcond.mpr hrej)]
        show (runLIFO (bque_preempt c (some v) v.length).2 rest).2 = _ ∧
          (runLIFO (bque_preempt c (some v) v.length).2 rest).1.nodes.map payload = _
        rw [hid]
        show _ = (specStackRun maxN maxS (specStackPush maxN maxS st v) rest).2.map _ ∧
          _ = (specStackRun maxN maxS (specStackPush maxN maxS st v) rest).1.map _
        rw [hpush]
        exact ih c st h1 h2 h3 h4
      · push_neg at hrej
        have hok := bque_preempt_ok c (some v) v.length h3 hrej.1 hrej.2
        have hpush : specStackPush maxN maxS st v = v :: st := by
          unfold specStackPush
          rw [if_neg (by rw [hcond]; tauto)]
        show (runLIFO (bque_preempt c (some v) v.length).2 rest).2 = _ ∧
          (runLIFO (bque_preempt c (some v) v.length).2 rest).1.nodes.map payload = _
        rw [hok]
        show _ = (specStackRun maxN maxS (specStackPush maxN maxS st v) rest).2.map _ ∧
          _ = (specStackRun maxN maxS (specStackPush maxN maxS st v) rest).1.map _
        rw [hpush]
        refine ih _ (v :: st) ?_ ?_ ?_ ?_ <;>
          simp [payload, stackPayload, h1, h2, h3, h4]
    | deq =>
      cases hns : c.nodes with
      | nil =>
        have hst : st = [] := by
          rw [hns] at hlen
          exact List.eq_nil_of_length_eq_zero hlen.symm
        have h0 : c.nodeNum = 0 := by rw [h3, hns]; rfl
        have heq : runLIFO c (PCmd.deq :: rest) = runLIFO c rest := by
          simp only [runLIFO, bque_dequeue_empty c h0]
        rw [heq, hst]
        show _ = (specStackRun maxN maxS [] rest).2.map _ ∧
          _ = (specStackRun maxN maxS [] rest).1.map _
        exact ih c [] h1 h2 h3 (by rw [hst] at h4; exact h4)
      | cons hd tl =>
        cases hst : st with
        | nil =>
          rw [hns, hst] at hlen
          simp at hlen
        | cons w st' =>
          rw [hns, hst] at h4
          simp only [List.map_cons, List.cons.injEq] at h4
          have hdq := bque_dequeue_cons c hd tl hns h3
          have heq : runLIFO c (PCmd.deq :: rest) =
              ((runLIFO (bque_dequeue c).2 rest).1,
                (hd.data, hd.size) :: (runLIFO (bque_dequeue c).2 rest).2) := by
            simp only [runLIFO, hdq]
          rw [heq, hdq]
          have hih := ih (bque_dequeue c).2 st'
            (by rw [hdq]; exact h1) (by rw [hdq]; exact h2)
            (by rw [hdq]; simp; rw [h3, hns]; simp)
            (by rw [hdq]; exact h4.2)
          rw [hdq] at hih
          refine ⟨?_, hih.2⟩
          show ((hd.data, hd.size) : Option (List Nat) × Nat) :: _ = _
          simp only [specStackRun, List.map_cons]
          rw [hih.1]
          have hw : ((hd.data, hd.size) : Option (List Nat) × Nat) = stackPayload w := h4.1
          rw [hw]

/-- Claim C6: FIFO - running any enqueue/dequeue trace from a fresh queue,
the successful enqueues' payloads equal the successful dequeues' returned
buffers followed by the remaining queue contents, so removal order equals
insertion order.  LIFO at head - running any preempt/dequeue trace from a
fresh queue produces exactly the outputs and final contents of the spec's
reference stack machine, so each dequeue returns the most recently
preempted buffer still present. -/
theorem C6_fifo_lifo :
    (∀ (conf : Option Conf) (cs : List QCmd),
      (runFIFO (bque_new conf) cs).2.1 =
        (runFIFO (bque_new conf) cs).2.2 ++
          (runFIFO (bque_new conf) cs).1.nodes.map payload) ∧
    (∀ (conf : Option Conf) (cs : List PCmd),
      (runLIFO (bque_new conf) cs).2 =
        (specStackRun (bque_new conf).nodeNumMax (bque_new conf).buffSizeMax [] cs).2.map
          stackPayload ∧
      (runLIFO (bque_new conf) cs).1.nodes.map payload =
        (specStackRun (bque_new conf).nodeNumMax (bque_new conf).buffSizeMax [] cs).1.map
          stackPayload) := by
  constructor
  · intro conf cs
    have h := (runFIFO_spec cs (bque_new conf) (by cases conf <;> rfl)).2
    have hnil : (bque_new conf).nodes = [] := by cases conf <;> rfl
    rw [hnil] at h
    simpa using h
  · intro conf cs
    exact runLIFO_spec _ _ cs (bque_new conf) [] rfl rfl (by cases conf <;> rfl)
      (by cases conf <;> rfl)

/-! ## Claim C3 -/

theorem callsF_append (num : Nat) (u v : List Buf) :
    ∀ i, callsF num (u ++ v) i = callsF num u i ++ callsF num v (i + u.length) := by
  induction u with
  | nil => intro i; simp [callsF]
  | cons x xs ih =>
    intro i
    show IterCall.mk i num x.data x.size :: callsF num (xs ++ v) (i + 1) =
      IterCall.mk i num x.data x.size ::
        (callsF num xs (i + 1) ++ callsF num v (i + (xs.length + 1)))
    rw [ih (i + 1), show i + 1 + xs.length = i + (xs.length + 1) by omega]

theorem callsF_enumFrom (num : Nat) (l : List Buf) :
    ∀ i, callsF num l i =
      (List.enumFrom i l).map (fun p => IterCall.mk p.1 num p.2.data p.2.size) := by
  induction l with
  | nil => intro i; rfl
  | cons x xs ih => intro i; simp [callsF, List.enumFrom, ih (i + 1)]

theorem callsB_reverse (num : Nat) :
    ∀ (rl : List Buf) (i : Nat), rl.length = i + 1 →
      callsB num rl i = (callsF num rl.reverse 0).reverse := by
  intro rl
  induction rl with
  | nil => intro i h; cases h
  | cons x rest ih =>
    intro i hlen
    show IterCall.mk i num x.data x.size :: callsB num rest (i - 1) = _
    have hrl : rest.reverse.length = i := by
      rw [List.length_reverse]
      simpa using hlen
    rw [show (x :: rest).reverse = rest.reverse ++ [x] from List.reverse_cons x rest,
      callsF_append, hrl, Nat.zero_add]
    show _ = (callsF num rest.reverse 0 ++ [IterCall.mk i num x.data x.size]).reverse
    rw [List.reverse_append]
    cases hrest : rest with
    | nil =>
      have : i = 0 := by simp [hrest] at hlen; omega
      subst this
      simp [callsB, callsF, hrest]
    | cons y ys =>
      have hi : i - 1 + 1 = i := by
        rw [hrest] at hlen
        simp at hlen
        omega
      rw [← hrest, ih (i - 1) (by rw [hrest] at hlen ⊢; simp at hlen ⊢; omega)]
      simp

/-- Claim C3 (counterexample): on a concrete two-node queue (head buffer
`[7]`, tail buffer `[5]`), the backward iteration's first callback
invocation - the tail - receives index 1 (= count-1), not index 0 as the
claim states. -/
theorem C3_counterexample :
    foreachCalls ctxTwo IterOrder.backward =
      [IterCall.mk 1 2 (some [5]) 1, IterCall.mk 0 2 (some [7]) 1] ∧
    (foreachCalls ctxTwo IterOrder.backward).map (fun cc => cc.idx) ≠ [0, 1] := by
  refine ⟨by decide, by decide⟩

/-- Claim C3 (amended): `bque_foreach` always passes each node its forward
(head-based) index together with the total count and the node's buffer and
size; forward traversal visits head to tail (the head receiving index 0),
and backward traversal visits the same invocation records in reverse order
- tail first with index count-1, head last with index 0. -/
theorem C3_foreach_order (c : Ctx) (hnl : c.nodeNum = c.nodes.length) :
    foreachCalls c IterOrder.forward =
      c.nodes.enum.map (fun p => IterCall.mk p.1 c.nodeNum p.2.data p.2.size) ∧
    foreachCalls c IterOrder.backward =
      (c.nodes.enum.map (fun p => IterCall.mk p.1 c.nodeNum p.2.data p.2.size)).reverse := by
  by_cases h0 : c.nodeNum = 0
  · have hnil : c.nodes = [] := by
      rw [h0] at hnl
      exact (List.eq_nil_of_length_eq_zero hnl.symm)
    simp [foreachCalls, h0, hnil]
  · have hlen : c.nodes.length = (c.nodeNum - 1) + 1 := by omega
    constructor
    · simp only [foreachCalls, if_neg h0]
      rw [List.enum_eq_enumFrom]
      exact callsF_enumFrom c.nodeNum c.nodes 0
    · simp only [foreachCalls, if_neg h0]
      rw [callsB_reverse c.nodeNum c.nodes.reverse (c.nodeNum - 1)
        (by rw [List.length_reverse]; omega), List.reverse_reverse,
        List.enum_eq_enumFrom]
      rw [callsF_enumFrom c.nodeNum c.nodes 0]

/-- Witness for C3: the amended iteration order on the concrete two-node
queue. -/
theorem C3_witness :
    ctxTwo.nodeNum = ctxTwo.nodes.length ∧
    foreachCalls ctxTwo IterOrder.backward =
      (ctxTwo.nodes.enum.map (fun p => IterCall.mk p.1 ctxTwo.nodeNum p.2.data p.2.size)).reverse :=
  ⟨by decide, (C3_foreach_order ctxTwo (by decide)).2⟩

/-! ## Claim C9 -/

/-- Claim C9: on a queue whose count fits the 32-bit field, `bque_item`
returns the same result and the same successor state for the forward index
`i` (0 <= i < count) and for the backward index `i - count`; on a
well-formed context both resolve to the element at forward position `i`
and hand out its buffer and size. -/
theorem C9_item_negative_index (c : Ctx) (i : Int) (h0 : 0 ≤ i)
    (h1 : i < (c.nodeNum : Int)) (hcap : c.nodeNum ≤ UMAX) :
    bque_item c i = bque_item c (i - (c.nodeNum : Int)) ∧
    (WF c → ∃ b, c.nodes[i.toNat]? = some b ∧
      (bque_item c i).1 = ItemRes.ok b.data b.size) := by
  have hn1 : 1 ≤ c.nodeNum := by omega
  have hM : (c.nodeNum + UMAX) % U32 = c.nodeNum - 1 :=
    idxMax_eq hn1 (by unfold UMAX U32 at *; omega)
  have hv1 : itemValidate c.nodeNum i = some i.toNat := by
    unfold itemValidate
    rw [if_pos h0, hM, if_neg (by omega)]
  have hv2 : itemValidate c.nodeNum (i - (c.nodeNum : Int)) = some i.toNat := by
    unfold itemValidate
    rw [if_neg (by omega), if_neg (by omega)]
    exact congrArg some (by omega)
  constructor
  · simp only [bque_item, hv1, hv2]
  · intro hwf
    have hfwd : i.toNat < c.nodes.length := by
      have := itemValidate_lt hn1 hcap hv1
      have hnl := hwf.1
      omega
    refine ⟨c.nodes.get ⟨i.toNat, hfwd⟩, ?_, ?_⟩
    · rw [List.getElem?_eq_getElem hfwd]
      rfl
    · rw [bque_item_ok c i hwf hv1 hfwd]

/-- Witness for C9: forward index 1 and backward index -1 on a concrete
two-node queue. -/
theorem C9_witness :
    ((0 : Int) ≤ 1 ∧ (1 : Int) < (ctxTwo.nodeNum : Int) ∧ ctxTwo.nodeNum ≤ UMAX) ∧
    bque_item ctxTwo 1 = bque_item ctxTwo (1 - (ctxTwo.nodeNum : Int)) ∧
    (WF ctxTwo → ∃ b, ctxTwo.nodes[(1 : Int).toNat]? = some b ∧
      (bque_item ctxTwo 1).1 = ItemRes.ok b.data b.size) :=
  ⟨⟨by decide, by decide, by decide⟩,
    C9_item_negative_index ctxTwo 1 (by decide) (by decide) (by decide)⟩

/-! ## Claim C8 -/

/-- Claim C8: on a context whose count matches the chain and whose cache
index (when occupied) is in range - both invariants of every reachable
state - `bque_insert` at index 0 is the same call as `bque_preempt`, and
`bque_insert` at index `node_num` is the same call as `bque_enqueue`:
identical result codes and identical successor states, including the fast
indexing cache. -/
theorem C8_insert_endpoints (c : Ctx) (buff : Option (List Nat)) (size : Nat)
    (hnl : c.nodeNum = c.nodes.length)
    (hcache : ∀ b i, c.cacheLast = some (b, i) → i < c.nodeNum) :
    bque_insert c 0 buff size = bque_preempt c buff size ∧
    bque_insert c c.nodeNum buff size = bque_enqueue c buff size := by
  constructor
  · by_cases hfull : fullCheck c
    · simp [bque_insert, bque_preempt, hfull]
    · by_cases hsize : badSizeCheck c size
      · simp [bque_insert, bque_preempt, hfull, hsize]
      · have hidx : ¬ ((0 : Nat) > c.nodeNum) := by omega
        cases hns : c.nodes with
        | nil =>
          have h0 : c.nodeNum = 0 := by rw [hnl, hns]; rfl
          cases hcl : c.cacheLast with
          | none =>
            simp [bque_insert, bque_preempt, create_node, hfull, hsize, hidx, hns, hcl, h0]
          | some bi =>
            simp [bque_insert, bque_preempt, create_node, hfull, hsize, hidx, hns, hcl, h0]
        | cons hd tl =>
          cases hcl : c.cacheLast with
          | none =>
            simp [bque_insert, bque_preempt, create_node, hfull, hsize, hidx, hns, hcl]
          | some bi =>
            rcases bi with ⟨b, ci⟩
            simp [bque_insert, bque_preempt, create_node, hfull, hsize, hidx, hns, hcl]
  · by_cases hfull : fullCheck c
    · simp [bque_insert, bque_enqueue, hfull]
    · by_cases hsize : badSizeCheck c size
      · simp [bque_insert, bque_enqueue, hfull, hsize]
      · have hidx : ¬ (c.nodeNum > c.nodeNum) := by omega
        cases hns : c.nodes with
        | nil =>
          have h0 : c.nodeNum = 0 := by rw [hnl, hns]; rfl
          cases hcl : c.cacheLast with
          | none =>
            simp [bque_insert, bque_enqueue, create_node, hfull, hsize, hidx, hns, hcl, h0]
          | some bi =>
            rcases bi with ⟨b, ci⟩
            have := hcache b ci hcl
            omega
        | cons hd tl =>
          have h1 : c.nodeNum ≠ 0 := by
            rw [hnl, hns]
            simp
          cases hcl : c.cacheLast with
          | none =>
            simp [bque_insert, bque_enqueue, create_node, hfull, hsize, hidx, hns, hcl, h1]
          | some bi =>
            rcases bi with ⟨b, ci⟩
            have hci := hcache b ci hcl
            have hlt : ¬ (ci ≥ c.nodeNum) := by omega
            simp [bque_insert, bque_enqueue, create_node, hfull, hsize, hidx, hns, hcl, h1, hlt]

/-- Witness for C8: the endpoint equivalences on a concrete two-node
queue. -/
theorem C8_witness :
    ctxTwo.nodeNum = ctxTwo.nodes.length ∧
    bque_insert ctxTwo 0 (some [3]) 1 = bque_preempt ctxTwo (some [3]) 1 ∧
    bque_insert ctxTwo ctxTwo.nodeNum (some [3]) 1 = bque_enqueue ctxTwo (some [3]) 1 :=
  ⟨by decide,
    C8_insert_endpoints ctxTwo (some [3]) 1 (by decide) (by intro b i h; cases h)⟩

/-- Witness for C10: the default bounds at the capacity context. -/
theorem C10_witness :
    ctxCap.nodeNumMax = 1024 ∧ ctxCap.nodeNum = 1024 ∧
    bque_enqueue ctxCap (some [1]) 1 = (BqueRes.FULL_QUE, ctxCap) ∧
    bque_enqueue (bque_new none) none 1025 = (BqueRes.BAD_SIZE, bque_new none) :=
  ⟨rfl, rfl,
    C10_default_bounds.2.2.1 ctxCap (some [1]) 1 rfl rfl,
    C10_default_bounds.2.2.2 (bque_new none) none 1025 rfl (by decide) (by decide)⟩

/-! ## Bubble sort: the array loops equal the recursive passes -/

theorem swapStep_nil {α : Type} (sw : α → α → Bool) (j : Nat) :
    swapStep sw [] j = [] := by
  simp [swapStep]

theorem swapStep_singleton {α : Type} (sw : α → α → Bool) (a : α) (j : Nat) :
    swapStep sw [a] j = [a] := by
  unfold swapStep
  have hj1 : ([a] : List α)[j + 1]? = none := List.getElem?_eq_none (by simp)
  rw [hj1]
  cases hj : ([a] : List α)[j]? with
  | none => rfl
  | some x => rfl

theorem swapStep_cons {α : Type} (sw : α → α → Bool) (x : α) (xs : List α) (j : Nat) :
    swapStep sw (x :: xs) (j + 1) = x :: swapStep sw xs j := by
  unfold swapStep
  rw [List.getElem?_cons_succ, List.getElem?_cons_succ]
  cases h1 : xs[j]? with
  | none => rfl
  | some a =>
    cases h2 : xs[j + 1]? with
    | none => rfl
    | some b =>
      show (if sw a b then ((x :: xs).set (j + 1) b).set (j + 1 + 1) a else x :: xs) =
        x :: (if sw a b then (xs.set j b).set (j + 1) a else xs)
      split <;> rfl

theorem foldl_swapStep_nil {α : Type} (sw : α → α → Bool) :
    ∀ L : List Nat, L.foldl (swapStep sw) [] = [] := by
  intro L
  induction L with
  | nil => rfl
  | cons j L ih => simp [swapStep_nil, ih]

theorem foldl_swapStep_singleton {α : Type} (sw : α → α → Bool) (a : α) :
    ∀ L : List Nat, L.foldl (swapStep sw) [a] = [a] := by
  intro L
  induction L with
  | nil => rfl
  | cons j L ih => simp [swapStep_singleton, ih]

theorem foldl_swapStep_shift {α : Type} (sw : α → α → Bool) :
    ∀ (L : List Nat) (x : α) (xs : List α),
      L.foldl (fun acc j => swapStep sw acc (j + 1)) (x :: xs) =
        x :: L.foldl (swapStep sw) xs := by
  intro L
  induction L with
  | nil => intro x xs; rfl
  | cons j L ih =>
    intro x xs
    show L.foldl _ (swapStep sw (x :: xs) (j + 1)) = _
    rw [swapStep_cons, ih]
    rfl

/-- The inner loop of `bque_sort` is the recursive bubble pass. -/
theorem innerPass_eq_bpassN {α : Type} (sw : α → α → Bool) :
    ∀ (m : Nat) (l : List α), innerPass sw l m = bpassN sw m l := by
  intro m
  induction m with
  | zero => intro l; rfl
  | succ k ih =>
    intro l
    match l with
    | [] =>
      show (List.range (k + 1)).foldl (swapStep sw) [] = []
      exact foldl_swapStep_nil sw _
    | [a] =>
      show (List.range (k + 1)).foldl (swapStep sw) [a] = [a]
      exact foldl_swapStep_singleton sw a _
    | a :: b :: t =>
      show (List.range (k + 1)).foldl (swapStep sw) (a :: b :: t) = _
      rw [List.range_succ_eq_map]
      show (((List.range k).map Nat.succ).foldl (swapStep sw) (swapStep sw (a :: b :: t) 0)) = _
      have h0 : swapStep sw (a :: b :: t) 0 =
          if sw a b then b :: a :: t else a :: b :: t := by
        simp [swapStep]
      rw [h0, List.foldl_map]
      show (List.range k).foldl (fun acc j => swapStep sw acc (j + 1))
        (if sw a b then b :: a :: t else a :: b :: t) = bpassN sw (k + 1) (a :: b :: t)
      simp only [bpassN]
      by_cases hab : sw a b
      · rw [if_pos hab, if_pos hab, foldl_swapStep_shift]
        show b :: innerPass sw (a :: t) k = _
        rw [ih]
      · rw [if_neg hab, if_neg hab, foldl_swapStep_shift]
        show a :: innerPass sw (b :: t) k = _
        rw [ih]

/-- The outer loop of `bque_sort` is the chain of shrinking recursive
passes. -/
theorem outerSort_eq_bubbleIter {α : Type} (sw : α → α → Bool) :
    ∀ (k : Nat) (l : List α),
      (List.range k).foldl (fun acc i => innerPass sw acc (k - i)) l = bubbleIter sw k l := by
  intro k
  induction k with
  | zero => intro l; rfl
  | succ k ih =>
    intro l
    rw [List.range_succ_eq_map]
    show ((List.range k).map Nat.succ).foldl (fun acc i => innerPass sw acc (k + 1 - i))
      (innerPass sw l (k + 1 - 0)) = _
    rw [List.foldl_map]
    have harith : (fun (acc : List α) (i : Nat) => innerPass sw acc (k + 1 - (i + 1))) =
        fun acc i => innerPass sw acc (k - i) := by
      funext acc i
      rw [show k + 1 - (i + 1) = k - i by omega]
    rw [harith, show k + 1 - 0 = k + 1 by omega, innerPass_eq_bpassN, ih]
    rfl

/-- `bque_sort`'s array bubble sort, as iterated recursive passes. -/
theorem outerSort_eq (α : Type) (sw : α → α → Bool) (l : List α) (num : Nat) :
    outerSort sw l num = bubbleIter sw (num - 1) l := by
  unfold outerSort
  have harith : (fun (acc : List α) (i : Nat) => innerPass sw acc (num - i - 1)) =
      fun acc i => innerPass sw acc (num - 1 - i) := by
    funext acc i
    rw [show num - i - 1 = num - 1 - i by omega]
  rw [harith]
  exact outerSort_eq_bubbleIter sw (num - 1) l

/-! ## Bubble sort: correctness of the recursive passes

Throughout, `sw` is the swap test; `sw a b = false` reads "a may stay
before b".  The comparator hypotheses used are asymmetry of the swap test
and transitivity of its complement - both consequences of the claim's
"consistent total preorder" comparator. -/

theorem bpassN_length {α : Type} (sw : α → α → Bool) :
    ∀ (m : Nat) (l : List α), (bpassN sw m l).length = l.length := by
  intro m
  induction m with
  | zero => intro l; rfl
  | succ k ih =>
    intro l
    match l with
    | [] => rfl
    | [a] => rfl
    | a :: b :: t =>
      show (if sw a b then b :: bpassN sw k (a :: t) else a :: bpassN sw k (b :: t)).length = _
      split <;> simp [ih]

theorem bpassN_perm {α : Type} (sw : α → α → Bool) :
    ∀ (m : Nat) (l : List α), (bpassN sw m l).Perm l := by
  intro m
  induction m with
  | zero => intro l; exact List.Perm.refl l
  | succ k ih =>
    intro l
    match l with
    | [] => exact List.Perm.refl _
    | [a] => exact List.Perm.refl _
    | a :: b :: t =>
      show (if sw a b then b :: bpassN sw k (a :: t) else a :: bpassN sw k (b :: t)).Perm _
      split
      · exact ((ih (a :: t)).cons b).trans (List.Perm.swap a b t)
      · exact (ih (b :: t)).cons a

theorem bpassN_split {α : Type} (sw : α → α → Bool) :
    ∀ (m : Nat) (l : List α),
      bpassN sw m l = bpassN sw m (l.take (m + 1)) ++ l.drop (m + 1) := by
  intro m
  induction m with
  | zero =>
    intro l
    show l = l.take 1 ++ l.drop 1
    rw [List.take_append_drop]
  | succ k ih =>
    intro l
    match l with
    | [] => rfl
    | [a] => simp [bpassN]
    | a :: b :: t =>
      show (if sw a b then b :: bpassN sw k (a :: t) else a :: bpassN sw k (b :: t)) =
        bpassN sw (k + 1) (a :: b :: t.take k) ++ t.drop k
      show _ = (if sw a b then b :: bpassN sw k (a :: t.take k)
        else a :: bpassN sw k (b :: t.take k)) ++ t.drop k
      split
      · rw [ih (a :: t)]
        rfl
      · rw [ih (b :: t)]
        rfl

theorem sw_refl_false {α : Type} (sw : α → α → Bool)
    (hasym : ∀ a b, sw a b = true → sw b a = false) (a : α) : sw a a = false := by
  rcases Bool.eq_false_or_eq_true (sw a a) with h | h
  · exact hasym a a h
  · exact h

/-- One full pass over a list of length at most `m + 1` carries a maximal
element to the last position. -/
theorem bpassN_max {α : Type} (sw : α → α → Bool)
    (hasym : ∀ a b, sw a b = true → sw b a = false)
    (htrans : ∀ a b c, sw a b = false → sw b c = false → sw a c = false) :
    ∀ (m : Nat) (l : List α), l ≠ [] → l.length ≤ m + 1 →
      ∃ init M, bpassN sw m l = init ++ [M] ∧ ∀ x ∈ l, sw x M = false := by
  intro m
  induction m with
  | zero =>
    intro l hne hlen
    match l with
    | [a] =>
      exact ⟨[], a, rfl, by
        intro x hx
        rw [List.mem_singleton] at hx
        rw [hx]
        exact sw_refl_false sw hasym a⟩
  | succ k ih =>
    intro l hne hlen
    match l with
    | [a] =>
      exact ⟨[], a, rfl, by
        intro x hx
        rw [List.mem_singleton] at hx
        rw [hx]
        exact sw_refl_false sw hasym a⟩
    | a :: b :: t =>
      show ∃ init M,
        (if sw a b then b :: bpassN sw k (a :: t) else a :: bpassN sw k (b :: t)) = init ++ [M] ∧ _
      by_cases hab : sw a b
      · obtain ⟨init, M, heq, hmax⟩ := ih (a :: t) (by simp) (by simp at hlen ⊢; omega)
        refine ⟨b :: init, M, by rw [if_pos hab, heq]; rfl, ?_⟩
        intro x hx
        rcases List.mem_cons.mp hx with hxa | hx'
        · subst hxa
          exact hmax x (by simp)
        · rcases List.mem_cons.mp hx' with hxb | hxt
          · subst hxb
            exact htrans x a M (hasym a x hab) (hmax a (by simp))
          · exact hmax x (by simp [hxt])
      · have hab' : sw a b = false := Bool.eq_false_iff.mpr hab
        obtain ⟨init, M, heq, hmax⟩ := ih (b :: t) (by simp) (by simp at hlen ⊢; omega)
        refine ⟨a :: init, M, by rw [if_neg hab, heq]; rfl, ?_⟩
        intro x hx
        rcases List.mem_cons.mp hx with hxa | hx'
        · subst hxa
          exact htrans x b M hab' (hmax b (by simp))
        · exact hmax x hx'

/-- One outer-loop iteration: a pass of `m` comparisons extends the sorted
dominating suffix by one position. -/
theorem bpassN_inv_step {α : Type} (sw : α → α → Bool)
    (hasym : ∀ a b, sw a b = true → sw b a = false)
    (htrans : ∀ a b c, sw a b = false → sw b c = false → sw a c = false)
    (m : Nat) (l : List α) (hm : m + 1 ≤ l.length) (hinv : PassInv sw (m + 1) l) :
    PassInv sw m (bpassN sw m l) := by
  obtain ⟨hsorted, hdom⟩ := hinv
  have htake_len : (l.take (m + 1)).length = m + 1 := by
    rw [List.length_take]
    omega
  have htake_ne : l.take (m + 1) ≠ [] := by
    intro hh
    rw [hh] at htake_len
    cases htake_len
  obtain ⟨init, M, heqq, hmax⟩ :=
    bpassN_max sw hasym htrans m (l.take (m + 1)) htake_ne (by omega)
  have hinit_len : init.length = m := by
    have h1 := bpassN_length sw m (l.take (m + 1))
    rw [heqq] at h1
    simp at h1
    omega
  have hsplit : bpassN sw m l = init ++ ([M] ++ l.drop (m + 1)) := by
    rw [bpassN_split sw m l, heqq, List.append_assoc]
  have hMmem : M ∈ l.take (m + 1) := by
    have hperm := bpassN_perm sw m (l.take (m + 1))
    rw [heqq] at hperm
    exact hperm.mem_iff.mp (by simp)
  have hdrop : (bpassN sw m l).drop m = M :: l.drop (m + 1) := by
    rw [hsplit, List.drop_left' hinit_len]
    rfl
  have htake : (bpassN sw m l).take m = init := by
    rw [hsplit, List.take_left' hinit_len]
  constructor
  · rw [hdrop]
    refine List.Pairwise.cons ?_ hsorted
    intro b hb
    exact hdom M hMmem b hb
  · intro a ha b hb
    rw [htake] at ha
    rw [hdrop] at hb
    have hamem : a ∈ l.take (m + 1) := by
      have hperm := bpassN_perm sw m (l.take (m + 1))
      rw [heqq] at hperm
      exact hperm.mem_iff.mp (by simp [ha])
    rcases List.mem_cons.mp hb with hbM | hb'
    · subst hbM
      exact hmax a hamem
    · exact hdom a hamem b hb'

theorem bubbleIter_perm {α : Type} (sw : α → α → Bool) :
    ∀ (k : Nat) (l : List α), (bubbleIter sw k l).Perm l := by
  intro k
  induction k with
  | zero => intro l; exact List.Perm.refl l
  | succ k ih =>
    intro l
    exact (ih (bpassN sw (k + 1) l)).trans (bpassN_perm sw (k + 1) l)

theorem bubbleIter_length {α : Type} (sw : α → α → Bool) (k : Nat) (l : List α) :
    (bubbleIter sw k l).length = l.length :=
  (bubbleIter_perm sw k l).length_eq

/-- After the full cascade of shrinking passes, the whole list is in
non-decreasing swap-order. -/
theorem bubbleIter_sorted {α : Type} (sw : α → α → Bool)
    (hasym : ∀ a b, sw a b = true → sw b a = false)
    (htrans : ∀ a b c, sw a b = false → sw b c = false → sw a c = false) :
    ∀ (k : Nat) (l : List α), k + 1 ≤ l.length → PassInv sw (k + 1) l →
      (bubbleIter sw k l).Pairwise (fun a b => sw a b = false) := by
  intro k
  induction k with
  | zero =>
    intro l hk hinv
    show l.Pairwise _
    match l with
    | [] => exact List.Pairwise.nil
    | a :: t =>
      refine List.Pairwise.cons ?_ hinv.1
      intro b hb
      exact hinv.2 a (by simp) b hb
  | succ k ih =>
    intro l hk hinv
    show (bubbleIter sw k (bpassN sw (k + 1) l)).Pairwise _
    refine ih (bpassN sw (k + 1) l) ?_ ?_
    · rw [bpassN_length]
      omega
    · exact bpassN_inv_step sw hasym htrans (k + 1) l hk hinv

/-- The trivial top invariant: the empty suffix is sorted and dominates
nothing. -/
theorem passInv_top {α : Type} (sw : α → α → Bool) (l : List α) :
    PassInv sw l.length l := by
  constructor
  · rw [List.drop_length]
    exact List.Pairwise.nil
  · intro a _ b hb
    rw [List.drop_length] at hb
    cases hb

/-- Stability: a pass preserves any pairwise relation whose reverse holds
across every swapped pair. -/
theorem bpassN_pairwise {α : Type} (sw : α → α → Bool) (Q : α → α → Prop)
    (hQ : ∀ x y, sw x y = true → Q y x) :
    ∀ (m : Nat) (l : List α), l.Pairwise Q → (bpassN sw m l).Pairwise Q := by
  intro m
  induction m with
  | zero => intro l h; exact h
  | succ k ih =>
    intro l h
    match l with
    | [] => exact h
    | [a] => exact h
    | a :: b :: t =>
      rcases List.pairwise_cons.mp h with ⟨ha, h'⟩
      rcases List.pairwise_cons.mp h' with ⟨hb, ht⟩
      show (if sw a b then b :: bpassN sw k (a :: t) else a :: bpassN sw k (b :: t)).Pairwise Q
      by_cases hab : sw a b
      · rw [if_pos hab]
        refine List.Pairwise.cons ?_ (ih (a :: t) (List.Pairwise.cons (fun z hz => ha z (by simp [hz])) ht))
        intro z hz
        have hz' : z ∈ a :: t := (bpassN_perm sw k (a :: t)).mem_iff.mp hz
        rcases List.mem_cons.mp hz' with hza | hzt
        · subst hza
          exact hQ z b hab
        · exact hb z hzt
      · rw [if_neg hab]
        refine List.Pairwise.cons ?_ (ih (b :: t) h')
        intro z hz
        have hz' : z ∈ b :: t := (bpassN_perm sw k (b :: t)).mem_iff.mp hz
        exact ha z (by simp [List.mem_cons.mp hz'])

theorem bubbleIter_pairwise {α : Type} (sw : α → α → Bool) (Q : α → α → Prop)
    (hQ : ∀ x y, sw x y = true → Q y x) :
    ∀ (k : Nat) (l : List α), l.Pairwise Q → (bubbleIter sw k l).Pairwise Q := by
  intro k
  induction k with
  | zero => intro l h; exact h
  | succ k ih =>
    intro l h
    exact ih (bpassN sw (k + 1) l) (bpassN_pairwise sw Q hQ (k + 1) l h)

/-- The passes commute with projecting tagged entries, provided the swap
test only looks at the projection. -/
theorem bpassN_map {α β : Type} (sw : α → α → Bool) (swt : β → β → Bool) (f : β → α)
    (hf : ∀ x y, swt x y = sw (f x) (f y)) :
    ∀ (m : Nat) (tl : List β), (bpassN swt m tl).map f = bpassN sw m (tl.map f) := by
  intro m
  induction m with
  | zero => intro tl; rfl
  | succ k ih =>
    intro tl
    match tl with
    | [] => rfl
    | [a] => rfl
    | a :: b :: t =>
      show (if swt a b then b :: bpassN swt k (a :: t) else a :: bpassN swt k (b :: t)).map f =
        (if sw (f a) (f b) then f b :: bpassN sw k (f a :: (t.map f))
          else f a :: bpassN sw k (f b :: (t.map f)))
      rw [hf a b]
      by_cases hab : sw (f a) (f b)
      · rw [if_pos hab, if_pos hab]
        show f b :: (bpassN swt k (a :: t)).map f = _
        rw [ih (a :: t)]
        rfl
      · rw [if_neg hab, if_neg hab]
        show f a :: (bpassN swt k (b :: t)).map f = _
        rw [ih (b :: t)]
        rfl

theorem bubbleIter_map {α β : Type} (sw : α → α → Bool) (swt : β → β → Bool) (f : β → α)
    (hf : ∀ x y, swt x y = sw (f x) (f y)) :
    ∀ (k : Nat) (tl : List β), (bubbleIter swt k tl).map f = bubbleIter sw k (tl.map f) := by
  intro k
  induction k with
  | zero => intro tl; rfl
  | succ k ih =>
    intro tl
    show (bubbleIter swt k (bpassN swt (k + 1) tl)).map f = _
    rw [ih, bpassN_map sw swt f hf]
    rfl

/-- Tags produced by `enumFrom` are strictly increasing along the list. -/
theorem enumFrom_fst_lt {α : Type} :
    ∀ (l : List α) (n : Nat), (List.enumFrom n l).Pairwise (fun x y => x.1 < y.1) := by
  intro l
  induction l with
  | nil => intro n; exact List.Pairwise.nil
  | cons a t ih =>
    intro n
    refine List.Pairwise.cons ?_ (ih (n + 1))
    intro y hy
    have : n + 1 ≤ y.1 := by
      clear ih
      induction t generalizing n with
      | nil => cases hy
      | cons b t ih2 =>
        rcases List.mem_cons.mp hy with h | h
        · rw [h]
        · have := ih2 (n + 1) (by exact h)
          omega
    omega

/-! ## Claim C7 -/

/-- `bque_sort` on a queue of two or more nodes: success, sorted chain,
cache cleared. -/
theorem bque_sort_big (c : Ctx) (cb : SortCb) (order : SortOrder) (h2 : 2 ≤ c.nodeNum) :
    bque_sort c cb order =
      (BqueRes.OK,
        { c with
          nodes := bubbleIter
            (match order with
              | SortOrder.ascending => swAsc cb
              | SortOrder.descending => swDesc cb) (c.nodeNum - 1) c.nodes
          cacheLast := none }) := by
  have hz : c.nodeNum ≠ 0 := by omega
  have ho : c.nodeNum ≠ 1 := by omega
  simp only [bque_sort, if_neg hz, if_neg ho, outerSort_eq]

theorem swAsc_asym (cb : SortCb)
    (hsym : ∀ a sa b sb, cb a sa b sb = SortRes.greater ↔ cb b sb a sa = SortRes.less) :
    ∀ a b : Buf, swAsc cb a b = true → swAsc cb b a = false := by
  intro a b h
  simp only [swAsc, decide_eq_true_eq] at h
  simp only [swAsc, decide_eq_false_iff_not]
  rw [(hsym a.data a.size b.data b.size).mp h]
  intro hh
  cases hh

theorem swAsc_trans (cb : SortCb)
    (htrans : ∀ a sa b sb c2 sc, cb a sa b sb ≠ SortRes.greater →
      cb b sb c2 sc ≠ SortRes.greater → cb a sa c2 sc ≠ SortRes.greater) :
    ∀ a b c2 : Buf, swAsc cb a b = false → swAsc cb b c2 = false → swAsc cb a c2 = false := by
  intro a b c2 h1 h2
  simp only [swAsc, decide_eq_false_iff_not] at h1 h2 ⊢
  exact htrans _ _ _ _ _ _ h1 h2

theorem swDesc_asym (cb : SortCb)
    (hsym : ∀ a sa b sb, cb a sa b sb = SortRes.greater ↔ cb b sb a sa = SortRes.less) :
    ∀ a b : Buf, swDesc cb a b = true → swDesc cb b a = false := by
  intro a b h
  simp only [swDesc, decide_eq_true_eq] at h
  simp only [swDesc, decide_eq_false_iff_not]
  rw [(hsym b.data b.size a.data a.size).mpr h]
  intro hh
  cases hh

theorem swDesc_trans (cb : SortCb)
    (hsym : ∀ a sa b sb, cb a sa b sb = SortRes.greater ↔ cb b sb a sa = SortRes.less)
    (htrans : ∀ a sa b sb c2 sc, cb a sa b sb ≠ SortRes.greater →
      cb b sb c2 sc ≠ SortRes.greater → cb a sa c2 sc ≠ SortRes.greater) :
    ∀ a b c2 : Buf, swDesc cb a b = false → swDesc cb b c2 = false → swDesc cb a c2 = false := by
  intro a b c2 h1 h2
  simp only [swDesc, decide_eq_false_iff_not] at h1 h2 ⊢
  have hba : cb b.data b.size a.data a.size ≠ SortRes.greater := by
    intro hh
    exact h1 ((hsym b.data b.size a.data a.size).mp hh)
  have hcb : cb c2.data c2.size b.data b.size ≠ SortRes.greater := by
    intro hh
    exact h2 ((hsym c2.data c2.size b.data b.size).mp hh)
  intro hh
  exact (htrans _ _ _ _ _ _ hcb hba) ((hsym c2.data c2.size a.data a.size).mpr hh)

/-- Claim C7: for a comparator that is a consistent total preorder
(`greater`/`less` symmetric, and not-greater transitive), on a well-formed
queue with at least two nodes `bque_sort` succeeds in both orders; the
resulting chain is pairwise non-descending (ascending order: no pair in
forward order compares greater) respectively pairwise non-ascending
(descending order: no pair compares less); the multiset of buffers is
unchanged; and the sort is stable: running the same passes on the
position-tagged chain (whose projection is exactly the sorted chain)
keeps every comparator-equal pair in its original relative order - equal
pairs are never swapped. -/
theorem C7_sort_correct (c : Ctx) (cb : SortCb)
    (hsym : ∀ a sa b sb, cb a sa b sb = SortRes.greater ↔ cb b sb a sa = SortRes.less)
    (htrans : ∀ a sa b sb c2 sc, cb a sa b sb ≠ SortRes.greater →
      cb b sb c2 sc ≠ SortRes.greater → cb a sa c2 sc ≠ SortRes.greater)
    (hnl : c.nodeNum = c.nodes.length) (h2 : 2 ≤ c.nodeNum) :
    ((bque_sort c cb SortOrder.ascending).1 = BqueRes.OK ∧
      (bque_sort c cb SortOrder.ascending).2.nodes.Pairwise
        (fun a b => cb a.data a.size b.data b.size ≠ SortRes.greater) ∧
      (bque_sort c cb SortOrder.ascending).2.nodes.Perm c.nodes) ∧
    ((bque_sort c cb SortOrder.descending).1 = BqueRes.OK ∧
      (bque_sort c cb SortOrder.descending).2.nodes.Pairwise
        (fun a b => cb a.data a.size b.data b.size ≠ SortRes.less) ∧
      (bque_sort c cb SortOrder.descending).2.nodes.Perm c.nodes) ∧
    ((bubbleIter (fun x y : Nat × Buf => swAsc cb x.2 y.2) (c.nodeNum - 1) c.nodes.enum).map
        Prod.snd = (bque_sort c cb SortOrder.ascending).2.nodes ∧
      (bubbleIter (fun x y : Nat × Buf => swAsc cb x.2 y.2) (c.nodeNum - 1)
        c.nodes.enum).Pairwise
        (fun x y => cb x.2.data x.2.size y.2.data y.2.size = SortRes.equal → x.1 < y.1)) ∧
    ((bubbleIter (fun x y : Nat × Buf => swDesc cb x.2 y.2) (c.nodeNum - 1) c.nodes.enum).map
        Prod.snd = (bque_sort c cb SortOrder.descending).2.nodes ∧
      (bubbleIter (fun x y : Nat × Buf => swDesc cb x.2 y.2) (c.nodeNum - 1)
        c.nodes.enum).Pairwise
        (fun x y => cb x.2.data x.2.size y.2.data y.2.size = SortRes.equal → x.1 < y.1)) := by
  have hka : c.nodeNum - 1 - 1 + 1 = c.nodeNum - 1 := by omega
  have hlen1 : c.nodeNum - 1 + 1 = c.nodes.length := by omega
  have hsa := bque_sort_big c cb SortOrder.ascending h2
  have hsd := bque_sort_big c cb SortOrder.descending h2
  have hsorted_a : (bubbleIter (swAsc cb) (c.nodeNum - 1) c.nodes).Pairwise
      (fun a b => swAsc cb a b = false) := by
    rw [show c.nodeNum - 1 = (c.nodeNum - 2) + 1 by omega]
    refine bubbleIter_sorted (swAsc cb) (swAsc_asym cb hsym) (swAsc_trans cb htrans) _ _
      (by omega) ?_
    rw [show c.nodeNum - 2 + 1 + 1 = c.nodes.length by omega]
    exact passInv_top _ _
  have hsorted_d : (bubbleIter (swDesc cb) (c.nodeNum - 1) c.nodes).Pairwise
      (fun a b => swDesc cb a b = false) := by
    rw [show c.nodeNum - 1 = (c.nodeNum - 2) + 1 by omega]
    refine bubbleIter_sorted (swDesc cb) (swDesc_asym cb hsym)
      (swDesc_trans cb hsym htrans) _ _ (by omega) ?_
    rw [show c.nodeNum - 2 + 1 + 1 = c.nodes.length by omega]
    exact passInv_top _ _
  refine ⟨⟨by rw [hsa], ?_, by rw [hsa]; exact bubbleIter_perm _ _ _⟩,
    ⟨by rw [hsd], ?_, by rw [hsd]; exact bubbleIter_perm _ _ _⟩,
    ⟨?_, ?_⟩, ⟨?_, ?_⟩⟩
  · rw [hsa]
    show (bubbleIter (swAsc cb) (c.nodeNum - 1) c.nodes).Pairwise _
    refine hsorted_a.imp ?_
    intro a b h
    simpa [swAsc, decide_eq_false_iff_not] using h
  · rw [hsd]
    show (bubbleIter (swDesc cb) (c.nodeNum - 1) c.nodes).Pairwise _
    refine hsorted_d.imp ?_
    intro a b h
    simpa [swDesc, decide_eq_false_iff_not] using h
  · rw [hsa]
    show _ = bubbleIter (swAsc cb) (c.nodeNum - 1) c.nodes
    rw [bubbleIter_map (swAsc cb) _ Prod.snd (fun x y => rfl), List.enum_map_snd]
  · refine bubbleIter_pairwise _ _ ?_ _ _ ?_
    · intro x y hxy
      simp only [swAsc, decide_eq_true_eq] at hxy
      intro heqv
      rw [(hsym x.2.data x.2.size y.2.data y.2.size).mp hxy] at heqv
      cases heqv
    · refine (enumFrom_fst_lt c.nodes 0).imp ?_
      intro a b h _
      exact h
  · rw [hsd]
    show _ = bubbleIter (swDesc cb) (c.nodeNum - 1) c.nodes
    rw [bubbleIter_map (swDesc cb) _ Prod.snd (fun x y => rfl), List.enum_map_snd]
  · refine bubbleIter_pairwise _ _ ?_ _ _ ?_
    · intro x y hxy
      simp only [swDesc, decide_eq_true_eq] at hxy
      intro heqv
      rw [(hsym y.2.data y.2.size x.2.data x.2.size).mpr hxy] at heqv
      cases heqv
    · refine (enumFrom_fst_lt c.nodes 0).imp ?_
      intro a b h _
      exact h

theorem cbSize_hsym :
    ∀ a sa b sb, cbSize a sa b sb = SortRes.greater ↔ cbSize b sb a sa = SortRes.less := by
  intro a sa b sb
  unfold cbSize
  split_ifs <;> simp_all <;> omega

theorem cbSize_htrans :
    ∀ a sa b sb c2 sc, cbSize a sa b sb ≠ SortRes.greater →
      cbSize b sb c2 sc ≠ SortRes.greater → cbSize a sa c2 sc ≠ SortRes.greater := by
  intro a sa b sb c2 sc h1 h2
  unfold cbSize at *
  split_ifs at * <;> simp_all <;> omega

/-- Witness for C7: sorting a concrete three-node queue (sizes 3, 1, 2)
by size, ascending and descending. -/
theorem C7_witness :
    (ctxThree.nodeNum = ctxThree.nodes.length ∧ 2 ≤ ctxThree.nodeNum) ∧
    (bque_sort ctxThree cbSize SortOrder.ascending).2.nodes.Pairwise
      (fun a b => cbSize a.data a.size b.data b.size ≠ SortRes.greater) ∧
    (bque_sort ctxThree cbSize SortOrder.ascending).2.nodes.Perm ctxThree.nodes ∧
    (bque_sort ctxThree cbSize SortOrder.descending).2.nodes.Pairwise
      (fun a b => cbSize a.data a.size b.data b.size ≠ SortRes.less) :=
  ⟨⟨rfl, by decide⟩,
    (C7_sort_correct ctxThree cbSize cbSize_hsym cbSize_htrans rfl (by decide)).1.2.1,
    (C7_sort_correct ctxThree cbSize cbSize_hsym cbSize_htrans rfl (by decide)).1.2.2,
    (C7_sort_correct ctxThree cbSize cbSize_hsym cbSize_htrans rfl (by decide)).2.1.2.1⟩

/-- Every API call preserves well-formedness. -/
theorem step_WF {c c' : Ctx} (hwf : WF c) (hstep : Step c c') : WF c' := by
  obtain ⟨hnl, hcap, hcache⟩ := hwf
  cases hstep with
  | enqueue buff size hcapg =>
    by_cases hrej : fullCheck c ∨ badSizeCheck c size
    · rw [(bque_enqueue_fail c buff size hrej).2]
      exact ⟨hnl, hcap, hcache⟩
    · push_neg at hrej
      rw [bque_enqueue_ok c buff size hnl hrej.1 hrej.2]
      refine ⟨by simp [hnl], by simp; unfold UMAX at *; omega, ?_⟩
      intro b i hb
      have hc := hcache b i hb
      show (c.nodes ++ [⟨c.nextId, buff, size⟩])[i]? = some b
      rw [List.getElem?_append_left (getElem?_some_lt hc)]
      exact hc
  | preempt buff size hcapg =>
    by_cases hrej : fullCheck c ∨ badSizeCheck c size
    · rw [(bque_preempt_fail c buff size hrej).2]
      exact ⟨hnl, hcap, hcache⟩
    · push_neg at hrej
      rw [bque_preempt_ok c buff size hnl hrej.1 hrej.2]
      refine ⟨by simp [hnl], by simp; unfold UMAX at *; omega, ?_⟩
      intro b i hb
      cases hcl : c.cacheLast with
      | none =>
        rw [hcl] at hb
        have hb2 : (none : Option (Buf × Nat)) = some (b, i) := hb
        cases hb2
      | some bi =>
        rcases bi with ⟨b0, i0⟩
        rw [hcl] at hb
        have hb2 : some (b0, i0 + 1) = some (b, i) := hb
        show (⟨c.nextId, buff, size⟩ :: c.nodes)[i]? = some b
        simp only [Option.some.injEq, Prod.mk.injEq] at hb2
        obtain ⟨hb3, hb4⟩ := hb2
        subst hb3
        subst hb4
        rw [List.getElem?_cons_succ]
        exact hcache _ i0 hcl
  | insert idx buff size hcapg =>
    by_cases hrej : fullCheck c ∨ badSizeCheck c size ∨ idx > c.nodeNum
    · rw [(bque_insert_fail c idx buff size hrej).2]
      exact ⟨hnl, hcap, hcache⟩
    · push_neg at hrej
      obtain ⟨hfull, hsize, hidx⟩ := hrej
      rw [bque_insert_ok c idx buff size hnl hfull hsize (by omega)]
      have hidx2 : idx ≤ c.nodes.length := by omega
      have hlen_take : (c.nodes.take idx).length = idx := by
        rw [List.length_take]
        omega
      refine ⟨?_, ?_, ?_⟩
      · show c.nodeNum + 1 =
          (c.nodes.take idx ++ ⟨c.nextId, buff, size⟩ :: c.nodes.drop idx).length
        simp [hlen_take]
        omega
      · show (c.nodes.take idx ++ ⟨c.nextId, buff, size⟩ :: c.nodes.drop idx).length ≤ UMAX
        simp [hlen_take]
        unfold UMAX at *
        omega
      · intro b i hb
        show (c.nodes.take idx ++ ⟨c.nextId, buff, size⟩ :: c.nodes.drop idx)[i]? = some b
        cases hcl : c.cacheLast with
        | none =>
          rw [hcl] at hb
          have hb2 : (none : Option (Buf × Nat)) = some (b, i) := hb
          cases hb2
        | some bi =>
          rcases bi with ⟨b0, i0⟩
          rw [hcl] at hb
          have hb2 : (if i0 ≥ idx then some (b0, i0 + 1) else some (b0, i0)) =
            some (b, i) := hb
          have hc := hcache b0 i0 hcl
          by_cases hge : i0 ≥ idx
          · rw [if_pos hge] at hb2
            simp only [Option.some.injEq, Prod.mk.injEq] at hb2
            obtain ⟨hb3, hb4⟩ := hb2
            subst hb3
            subst hb4
            rw [List.getElem?_append_right (by omega), hlen_take,
              show i0 + 1 - idx = (i0 - idx) + 1 by omega, List.getElem?_cons_succ,
              List.getElem?_drop, show idx + (i0 - idx) = i0 by omega]
            exact hc
          · rw [if_neg hge] at hb2
            simp only [Option.some.injEq, Prod.mk.injEq] at hb2
            obtain ⟨hb3, hb4⟩ := hb2
            subst hb3
            subst hb4
            rw [List.getElem?_append_left (by omega), List.getElem?_take_of_lt (by omega)]
            exact hc
  | dequeue =>
    by_cases hz : c.nodeNum = 0
    · rw [bque_dequeue_empty c hz]
      exact ⟨hnl, hcap, hcache⟩
    · cases hns : c.nodes with
      | nil =>
        rw [hns] at hnl
        exact absurd hnl (by simpa using hz)
      | cons hd tl =>
        rw [bque_dequeue_cons c hd tl hns hnl]
        have hlen : c.nodeNum = tl.length + 1 := by rw [hnl, hns]; rfl
        refine ⟨?_, ?_, ?_⟩
        · show c.nodeNum - 1 = tl.length
          omega
        · show tl.length ≤ UMAX
          rw [hns] at hcap
          simp at hcap
          unfold UMAX at *
          omega
        · intro b i hb
          show tl[i]? = some b
          cases hcl : c.cacheLast with
          | none =>
            rw [hcl] at hb
            have hb2 : (none : Option (Buf × Nat)) = some (b, i) := hb
            cases hb2
          | some bi =>
            rcases bi with ⟨b0, i0⟩
            rw [hcl] at hb
            have hb2 : (if i0 = 0 then none else some (b0, i0 - 1)) = some (b, i) := hb
            by_cases hi0 : i0 = 0
            · rw [if_pos hi0] at hb2
              cases hb2
            · rw [if_neg hi0] at hb2
              simp only [Option.some.injEq, Prod.mk.injEq] at hb2
              obtain ⟨hb3, hb4⟩ := hb2
              subst hb3
              subst hb4
              have hc := hcache b0 i0 hcl
              rw [hns, show i0 = (i0 - 1) + 1 by omega, List.getElem?_cons_succ] at hc
              exact hc
  | forfeit =>
    by_cases hz : c.nodeNum = 0
    · have heq : bque_forfeit c = (ItemRes.err BqueRes.EMPTY_QUE, c) := by
        simp [bque_forfeit, hz]
      rw [heq]
      exact ⟨hnl, hcap, hcache⟩
    · cases hgl : c.nodes.getLast? with
      | none =>
        rw [List.getLast?_eq_none_iff.mp hgl] at hnl
        exact absurd hnl (by simpa using hz)
      | some lastNode =>
        rw [bque_forfeit_last c lastNode hgl hnl]
        refine ⟨?_, ?_, ?_⟩
        · show c.nodeNum - 1 = c.nodes.dropLast.length
          rw [List.length_dropLast]
          omega
        · show c.nodes.dropLast.length ≤ UMAX
          rw [List.length_dropLast]
          unfold UMAX at *
          omega
        · intro b i hb
          show c.nodes.dropLast[i]? = some b
          cases hcl : c.cacheLast with
          | none =>
            rw [hcl] at hb
            have hb2 : (none : Option (Buf × Nat)) = some (b, i) := hb
            cases hb2
          | some bi =>
            rcases bi with ⟨b0, i0⟩
            rw [hcl] at hb
            have hb2 : (if i0 = c.nodeNum - 1 then none else some (b0, i0)) =
              some (b, i) := hb
            by_cases hi0 : i0 = c.nodeNum - 1
            · rw [if_pos hi0] at hb2
              cases hb2
            · rw [if_neg hi0] at hb2
              simp only [Option.some.injEq, Prod.mk.injEq] at hb2
              obtain ⟨hb3, hb4⟩ := hb2
              subst hb3
              subst hb4
              have hc := hcache b0 i0 hcl
              have hi0lt : i0 < c.nodes.length := getElem?_some_lt hc
              rw [List.dropLast_eq_take, List.getElem?_take_of_lt (by omega)]
              exact hc
  | drop idx =>
    by_cases hz : c.nodeNum = 0
    · have heq : bque_drop c idx = (ItemRes.err BqueRes.EMPTY_QUE, c) := by
        simp [bque_drop, hz]
      rw [heq]
      exact ⟨hnl, hcap, hcache⟩
    · by_cases hge : idx ≥ c.nodeNum
      · have heq : bque_drop c idx = (ItemRes.err BqueRes.BAD_IDX, c) := by
          simp [bque_drop, hz, hge]
        rw [heq]
        exact ⟨hnl, hcap, hcache⟩
      · have hidxlt : idx < c.nodes.length := by omega
        have hnd : c.nodes[idx]? = some (c.nodes.get ⟨idx, hidxlt⟩) := by
          rw [List.getElem?_eq_getElem hidxlt]
          rfl
        rw [bque_drop_ok c idx _ hnd hnl (by omega)]
        have hlen_take : (c.nodes.take idx).length = idx := by
          rw [List.length_take]
          omega
        refine ⟨?_, ?_, ?_⟩
        · show c.nodeNum - 1 = (c.nodes.take idx ++ c.nodes.drop (idx + 1)).length
          simp [hlen_take]
          omega
        · show (c.nodes.take idx ++ c.nodes.drop (idx + 1)).length ≤ UMAX
          simp [hlen_take]
          unfold UMAX at *
          omega
        · intro b i hb
          show (c.nodes.take idx ++ c.nodes.drop (idx + 1))[i]? = some b
          cases hcl : c.cacheLast with
          | none =>
            rw [hcl] at hb
            have hb2 : (none : Option (Buf × Nat)) = some (b, i) := hb
            cases hb2
          | some bi =>
            rcases bi with ⟨b0, i0⟩
            rw [hcl] at hb
            have hb2 : (if i0 = idx then none
                else if i0 > idx then some (b0, i0 - 1) else some (b0, i0)) =
              some (b, i) := hb
            have hc := hcache b0 i0 hcl
            by_cases heq0 : i0 = idx
            · rw [if_pos heq0] at hb2
              cases hb2
            · rw [if_neg heq0] at hb2
              by_cases hgt : i0 > idx
              · rw [if_pos hgt] at hb2
                simp only [Option.some.injEq, Prod.mk.injEq] at hb2
                obtain ⟨hb3, hb4⟩ := hb2
                subst hb3
                subst hb4
                rw [List.getElem?_append_right (by omega), hlen_take,
                  List.getElem?_drop, show idx + 1 + (i0 - 1 - idx) = i0 by omega]
                exact hc
              · rw [if_neg hgt] at hb2
                simp only [Option.some.injEq, Prod.mk.injEq] at hb2
                obtain ⟨hb3, hb4⟩ := hb2
                subst hb3
                subst hb4
                rw [List.getElem?_append_left (by omega),
                  List.getElem?_take_of_lt (by omega)]
                exact hc
  | empty =>
    by_cases hz : c.nodeNum = 0
    · have heq : bque_empty c = (BqueRes.OK, c) := by
        simp [bque_empty, hz]
      rw [heq]
      exact ⟨hnl, hcap, hcache⟩
    · have heq : bque_empty c =
          (BqueRes.OK, { c with nodes := ([] : List Buf), nodeNum := 0, cacheLast := none }) := by
        simp [bque_empty, hz]
      rw [heq]
      refine ⟨rfl, by show (0 : Nat) ≤ UMAX; unfold UMAX; omega, ?_⟩
      intro b i hb
      have hb2 : (none : Option (Buf × Nat)) = some (b, i) := hb
      cases hb2
  | item idx hlo hhi hok =>
    cases hv : itemValidate c.nodeNum idx with
    | none =>
      have heq : bque_item c idx = (ItemRes.err BqueRes.BAD_IDX, c) := by
        simp [bque_item, hv]
      rw [heq]
      exact ⟨hnl, hcap, hcache⟩
    | some fwd =>
      by_cases hz : c.nodeNum = 0
      · have hnilq : c.nodes = [] := by
          rw [hz] at hnl
          exact List.eq_nil_of_length_eq_zero hnl.symm
        have hcl : c.cacheLast = none := by
          cases hcl : c.cacheLast with
          | none => rfl
          | some bi =>
            rcases bi with ⟨b0, i0⟩
            have hc := hcache b0 i0 hcl
            rw [hnilq] at hc
            simp at hc
        by_cases hpos : 0 ≤ idx
        · exact absurd (bque_item_empty_crash c idx hpos hhi hz hnilq hcl) hok
        · exfalso
          unfold itemValidate at hv
          rw [if_neg hpos, hz, if_pos (by omega)] at hv
          cases hv
      · have hfwd : fwd < c.nodes.length := by
          have := itemValidate_lt (by omega) (by omega) hv
          omega
        rw [bque_item_ok c idx ⟨hnl, hcap, hcache⟩ hv hfwd]
        refine ⟨hnl, hcap, ?_⟩
        intro b i hb
        have hb2 : some (c.nodes.get ⟨fwd, hfwd⟩, fwd) = some (b, i) := hb
        simp only [Option.some.injEq, Prod.mk.injEq] at hb2
        obtain ⟨hb3, hb4⟩ := hb2
        subst hb3
        subst hb4
        show c.nodes[fwd]? = some (c.nodes.get ⟨fwd, hfwd⟩)
        rw [List.getElem?_eq_getElem hfwd]
        rfl
  | sort cb order =>
    by_cases hz : c.nodeNum = 0
    · have heq : bque_sort c cb order = (BqueRes.EMPTY_QUE, c) := by
        simp [bque_sort, hz]
      rw [heq]
      exact ⟨hnl, hcap, hcache⟩
    · by_cases ho : c.nodeNum = 1
      · have heq : bque_sort c cb order = (BqueRes.OK, c) := by
          simp [bque_sort, hz, ho]
        rw [heq]
        exact ⟨hnl, hcap, hcache⟩
      · rw [bque_sort_big c cb order (by omega)]
        refine ⟨?_, ?_, ?_⟩
        · show c.nodeNum = (bubbleIter _ (c.nodeNum - 1) c.nodes).length
          rw [bubbleIter_length]
          exact hnl
        · show (bubbleIter _ (c.nodeNum - 1) c.nodes).length ≤ UMAX
          rw [bubbleIter_length]
          exact hcap
        · intro b i hb
          have hb2 : (none : Option (Buf × Nat)) = some (b, i) := hb
          cases hb2
  | option opt arg =>
    cases opt with
    | getMaxBuffNum => exact ⟨hnl, hcap, hcache⟩
    | getMaxBuffSize => exact ⟨hnl, hcap, hcache⟩
    | setFreeBuffCb => exact ⟨hnl, hcap, hcache⟩
    | setMaxBuffNum =>
      cases arg with
      | none => exact ⟨hnl, hcap, hcache⟩
      | some v => exact ⟨hnl, hcap, hcache⟩
    | setMaxBuffSize =>
      cases arg with
      | none => exact ⟨hnl, hcap, hcache⟩
      | some v => exact ⟨hnl, hcap, hcache⟩

/-- Every reachable context is well-formed. -/
theorem reachable_WF {c : Ctx} (h : Reachable c) : WF c := by
  induction h with
  | init conf =>
    cases conf with
    | none => exact ⟨rfl, by show (0 : Nat) ≤ UMAX; unfold UMAX; omega, by intro b i hb; cases hb⟩
    | some cf => exact ⟨rfl, by show (0 : Nat) ≤ UMAX; unfold UMAX; omega, by intro b i hb; cases hb⟩
  | step _ hstep ih => exact step_WF ih hstep


/-! ## Claim C5 -/

/-- Claim C5 (counterexample): a reachable one-node queue whose fast
indexing cache is occupied (reached by enqueue then item(0)); `bque_sort`
on it succeeds and leaves the cache entry in place, refuting "sort always
clears the entry". -/
theorem C5_counterexample :
    Reachable ctxOneCached ∧
    (bque_sort ctxOneCached cbSize SortOrder.ascending).1 = BqueRes.OK ∧
    (bque_sort ctxOneCached cbSize SortOrder.ascending).2.cacheLast ≠ none := by
  refine ⟨?_, by decide, by decide⟩
  have h1 : Reachable (bque_new none) := Reachable.init none
  have h2 : Reachable ctxOne :=
    Reachable.step h1 (Step.enqueue (bque_new none) (some [5]) 1 (by decide))
  exact Reachable.step h2 (Step.item ctxOne 0 (by decide) (by decide) (by decide))

/-- Claim C5 (amended): in every state reachable by any sequence of API
calls, whenever the fast-access cache entry is present, the node it
references is exactly the node at its stored forward index in the current
chain (every mutation either adjusts the stored index or clears the
entry, as proved operation by operation in `step_WF`); and `bque_sort`
clears the entry whenever it actually reorders, i.e. whenever
`count >= 2` - with `count <= 1` it returns without touching the (still
trivially valid) entry. -/
theorem C5_cache_invariant (c : Ctx) (h : Reachable c) :
    (∀ b i, c.cacheLast = some (b, i) → c.nodes[i]? = some b) ∧
    (∀ (cb : SortCb) (order : SortOrder), 2 ≤ c.nodeNum →
      (bque_sort c cb order).2.cacheLast = none) := by
  refine ⟨(reachable_WF h).2.2, ?_⟩
  intro cb order h2
  rw [bque_sort_big c cb order h2]

/-- Witness for C5: the invariant and the sort-clearing property at a
concrete reachable two-node queue. -/
theorem C5_witness :
    (∀ b i, ctxTwo.cacheLast = some (b, i) → ctxTwo.nodes[i]? = some b) ∧
    (∀ (cb : SortCb) (order : SortOrder), 2 ≤ ctxTwo.nodeNum →
      (bque_sort ctxTwo cb order).2.cacheLast = none) :=
  C5_cache_invariant ctxTwo
    (Reachable.step
      (Reachable.step (Reachable.init none)
        (Step.enqueue (bque_new none) (some [7]) 1 (by decide)))
      (Step.enqueue (bque_enqueue (bque_new none) (some [7]) 1).2 (some [5]) 1 (by decide)))

end BQ
